import Mathlib

/-!
Verification of the chrysalis post-processing build pipeline.

Strings are embedded as `List Char`, byte buffers as `List Nat` (each entry a
byte value), and `HashMap`s as association lists with unique keys.  Rust path
operations (`file_stem`, `extension`, `file_name`, `parent`) are modelled for
plain component strings without a path separator inside a component; the
degenerate inputs `""`, `"."` and `".."` follow the Rust behaviour.  External
crates (glob pattern matching, the minifier backends) are modelled as
abstract boolean predicates or result-valued functions passed as parameters,
since their code is not part of this repository.
-/

namespace Chrysalis

/-! ## Association-list model of `std::collections::HashMap` -/

/-- Model of `HashMap::get`: the value of the first entry with the given key. -/
def lookupA {K V : Type} [DecidableEq K] (m : List (K × V)) (k : K) : Option V :=
  (m.find? (fun e => e.1 = k)).map (·.2)

/-- Model of `HashMap::remove` (drops the entry with the given key; under the
unique-keys discipline of a hash map this removes at most one entry). -/
def removeA {K V : Type} [DecidableEq K] (m : List (K × V)) (k : K) : List (K × V) :=
  m.filter (fun e => ¬ e.1 = k)

/-- Model of `HashMap::insert` (replaces the value when the key is present). -/
def insertA {K V : Type} [DecidableEq K] (m : List (K × V)) (k : K) (v : V) : List (K × V) :=
  removeA m k ++ [(k, v)]

theorem lookupA_nil {K V : Type} [DecidableEq K] (k : K) :
    lookupA ([] : List (K × V)) k = none := rfl

theorem lookupA_cons {K V : Type} [DecidableEq K] (e : K × V) (t : List (K × V)) (k : K) :
    lookupA (e :: t) k = if e.1 = k then some e.2 else lookupA t k := by
  by_cases h : e.1 = k
  · unfold lookupA
    rw [List.find?_cons_of_pos _ (by simpa using h)]
    simp [h]
  · unfold lookupA
    rw [List.find?_cons_of_neg _ (by simpa using h)]
    simp [h]

theorem removeA_cons {K V : Type} [DecidableEq K] (e : K × V) (t : List (K × V)) (k : K) :
    removeA (e :: t) k = if e.1 = k then removeA t k else e :: removeA t k := by
  by_cases h : e.1 = k <;> simp [removeA, List.filter_cons, h]

theorem lookupA_append {K V : Type} [DecidableEq K] (l₁ l₂ : List (K × V)) (k : K) :
    lookupA (l₁ ++ l₂) k =
      match lookupA l₁ k with
      | some v => some v
      | none => lookupA l₂ k := by
  induction l₁ with
  | nil => simp [lookupA_nil]
  | cons e t ih =>
    rw [List.cons_append, lookupA_cons, lookupA_cons]
    by_cases h : e.1 = k <;> simp [h, ih]

theorem lookupA_removeA_self {K V : Type} [DecidableEq K] (m : List (K × V)) (k : K) :
    lookupA (removeA m k) k = none := by
  induction m with
  | nil => rfl
  | cons e t ih =>
    rw [removeA_cons]
    by_cases h : e.1 = k
    · simpa [h] using ih
    · rw [if_neg h, lookupA_cons, if_neg h]
      exact ih

theorem lookupA_removeA_ne {K V : Type} [DecidableEq K] (m : List (K × V)) (k k' : K)
    (h : k' ≠ k) : lookupA (removeA m k) k' = lookupA m k' := by
  induction m with
  | nil => rfl
  | cons e t ih =>
    rw [removeA_cons, lookupA_cons]
    by_cases he : e.1 = k
    · have : ¬ e.1 = k' := fun hh => h (hh ▸ he)
      rw [if_pos he, if_neg this]
      exact ih
    · rw [if_neg he, lookupA_cons]
      by_cases he' : e.1 = k' <;> simp [he', ih]

theorem lookupA_insertA_self {K V : Type} [DecidableEq K] (m : List (K × V)) (k : K) (v : V) :
    lookupA (insertA m k v) k = some v := by
  unfold insertA
  rw [lookupA_append, lookupA_removeA_self]
  simp [lookupA_cons]

theorem lookupA_insertA_ne {K V : Type} [DecidableEq K] (m : List (K × V)) (k k' : K) (v : V)
    (h : k' ≠ k) : lookupA (insertA m k v) k' = lookupA m k' := by
  unfold insertA
  rw [lookupA_append]
  rw [lookupA_removeA_ne m k k' h]
  cases hm : lookupA m k' with
  | some w => rfl
  | none => simp [lookupA_cons, lookupA_nil, h.symm]

theorem lookupA_eq_some_mem {K V : Type} [DecidableEq K] {m : List (K × V)} {k : K} {v : V}
    (h : lookupA m k = some v) : (k, v) ∈ m := by
  induction m with
  | nil => simp [lookupA_nil] at h
  | cons e t ih =>
    rw [lookupA_cons] at h
    by_cases he : e.1 = k
    · rw [if_pos he] at h
      obtain ⟨a, b⟩ := e
      simp only [Option.some_inj] at h
      simp only at he
      subst he; subst h
      exact List.mem_cons_self _ _
    · rw [if_neg he] at h
      exact List.mem_cons_of_mem _ (ih h)

theorem lookupA_eq_none_not_mem {K V : Type} [DecidableEq K] {m : List (K × V)} {k : K}
    (h : lookupA m k = none) : ∀ v : V, (k, v) ∉ m := by
  intro v hv
  induction m with
  | nil => cases hv
  | cons e t ih =>
    rw [lookupA_cons] at h
    by_cases he : e.1 = k
    · rw [if_pos he] at h; cases h
    · rw [if_neg he] at h
      cases hv with
      | head => exact he rfl
      | tail _ hm => exact ih h hm

/-- Keys of an association list are pairwise distinct (the hash-map invariant). -/
def keysNodup {K V : Type} (m : List (K × V)) : Prop := (m.map Prod.fst).Nodup

theorem lookupA_unique {K V : Type} [DecidableEq K] {m : List (K × V)} {k : K} {v w : V}
    (hn : keysNodup m) (hmem : (k, v) ∈ m) (hl : lookupA m k = some w) : v = w := by
  induction m with
  | nil => cases hmem
  | cons e t ih =>
    have hn' : keysNodup t := (List.nodup_cons.mp hn).2
    rw [lookupA_cons] at hl
    by_cases he : e.1 = k
    · rw [if_pos he] at hl
      simp only [Option.some_inj] at hl
      cases hmem with
      | head => rw [← hl]
      | tail _ hm =>
        exfalso
        have : e.1 ∈ t.map Prod.fst := by
          rw [he]
          exact List.mem_map.mpr ⟨(k, v), hm, rfl⟩
        exact (List.nodup_cons.mp hn).1 this
    · rw [if_neg he] at hl
      cases hmem with
      | head => exact absurd rfl he
      | tail _ hm => exact ih hn' hm hl

/-! ## Character classes and separator splitting -/

/-- Model of Rust `char::is_ascii_hexdigit` (accepts both letter cases). -/
def isAsciiHexDigit (c : Char) : Bool :=
  (('0' ≤ c ∧ c ≤ '9') ∨ ('a' ≤ c ∧ c ≤ 'f') ∨ ('A' ≤ c ∧ c ≤ 'F') : Prop)

/-- Lowercase-only hex digit, used to state the spec's recogniser. -/
def isLowerHexDigit (c : Char) : Bool :=
  (('0' ≤ c ∧ c ≤ '9') ∨ ('a' ≤ c ∧ c ≤ 'f') : Prop)

/-- Split a character list at every occurrence of the separator, modelling
Rust `str::split(sep)` (also used with the path separator). -/
def splitSep (sep : Char) : List Char → List (List Char)
  | [] => [[]]
  | c :: rest =>
    if c = sep then [] :: splitSep sep rest
    else (splitSep sep rest).modifyHead (c :: ·)

/-- Join string pieces with a separator, modelling Rust `[&str]::join`. -/
def joinSep (sep : Char) : List (List Char) → List Char
  | [] => []
  | [x] => x
  | x :: y :: rest => x ++ sep :: joinSep sep (y :: rest)

theorem splitSep_ne_nil (sep : Char) (l : List Char) : splitSep sep l ≠ [] := by
  induction l with
  | nil => simp [splitSep]
  | cons c rest ih =>
    by_cases h : c = sep
    · simp [splitSep, h]
    · simp only [splitSep, if_neg h]
      cases hs : splitSep sep rest with
      | nil => exact absurd hs ih
      | cons a t => simp [List.modifyHead]

theorem splitSep_sepFree (sep : Char) (l : List Char) (h : ∀ a ∈ l, a ≠ sep) :
    splitSep sep l = [l] := by
  induction l with
  | nil => rfl
  | cons c rest ih =>
    have hc : c ≠ sep := h c (List.mem_cons_self _ _)
    have ih' := ih (fun a ha => h a (List.mem_cons_of_mem _ ha))
    simp [splitSep, hc, ih', List.modifyHead]

theorem modifyHead_append {α : Type} (f : α → α) (l₁ l₂ : List α) (h : l₁ ≠ []) :
    (l₁ ++ l₂).modifyHead f = l₁.modifyHead f ++ l₂ := by
  cases l₁ with
  | nil => exact absurd rfl h
  | cons a t => simp [List.modifyHead]

theorem splitSep_append (sep : Char) (l₁ l₂ : List Char) :
    splitSep sep (l₁ ++ sep :: l₂) = splitSep sep l₁ ++ splitSep sep l₂ := by
  induction l₁ with
  | nil => simp [splitSep]
  | cons c rest ih =>
    by_cases h : c = sep
    · simp [splitSep, h, ih]
    · simp only [List.cons_append, splitSep, if_neg h]
      show (splitSep sep (rest ++ sep :: l₂)).modifyHead (c :: ·) =
        (splitSep sep rest).modifyHead (c :: ·) ++ splitSep sep l₂
      rw [ih, modifyHead_append _ _ _ (splitSep_ne_nil sep rest)]

theorem joinSep_splitSep (sep : Char) (l : List Char) :
    joinSep sep (splitSep sep l) = l := by
  induction l with
  | nil => rfl
  | cons c rest ih =>
    by_cases h : c = sep
    · subst h
      simp only [splitSep, if_pos rfl]
      cases hs : splitSep c rest with
      | nil => exact absurd hs (splitSep_ne_nil c rest)
      | cons a t =>
        rw [hs] at ih
        simp [joinSep, ih]
    · simp only [splitSep, if_neg h]
      cases hs : splitSep sep rest with
      | nil => exact absurd hs (splitSep_ne_nil sep rest)
      | cons a t =>
        rw [hs] at ih
        cases t with
        | nil => simpa [List.modifyHead, joinSep] using congrArg (c :: ·) ih
        | cons b t' => simpa [List.modifyHead, joinSep] using congrArg (c :: ·) ih

theorem length_splitSep_pos (sep : Char) (l : List Char) : 0 < (splitSep sep l).length := by
  cases hs : splitSep sep l with
  | nil => exact absurd hs (splitSep_ne_nil sep l)
  | cons a t => simp

/-! ## Rust path-component operations on plain file names -/

/-- Split a name at its last dot: `some (before, after)` when the name contains
a dot (`after` is then dot-free), `none` otherwise.  Models the
`rsplitn(2, '.')` step inside Rust `Path::file_stem` / `Path::extension`. -/
def splitAtLastDot : List Char → Option (List Char × List Char)
  | [] => none
  | c :: rest =>
    match splitAtLastDot rest with
    | some (b, a) => some (c :: b, a)
    | none => if c = '.' then some ([], rest) else none

theorem splitAtLastDot_eq_none_iff (s : List Char) :
    splitAtLastDot s = none ↔ '.' ∉ s := by
  induction s with
  | nil => simp [splitAtLastDot]
  | cons c rest ih =>
    simp only [splitAtLastDot]
    cases hr : splitAtLastDot rest with
    | some p =>
      simp only []
      constructor
      · intro h; cases h
      · intro h
        exfalso
        have : '.' ∉ rest := fun hm => h (List.mem_cons_of_mem _ hm)
        rw [← ih] at this
        rw [hr] at this
        cases this
    | none =>
      have hrest : '.' ∉ rest := by rw [← ih, hr]
      by_cases hc : c = '.'
      · subst hc
        simp
      · rw [if_neg hc]
        constructor
        · intro _
          simp only [List.mem_cons]
          intro hor
          cases hor with
          | inl h1 => exact hc h1.symm
          | inr h2 => exact hrest h2
        · intro _
          rfl

theorem splitAtLastDot_append (b a : List Char) (ha : '.' ∉ a) :
    splitAtLastDot (b ++ '.' :: a) = some (b, a) := by
  induction b with
  | nil =>
    have : splitAtLastDot a = none := (splitAtLastDot_eq_none_iff a).mpr ha
    simp [splitAtLastDot, this]
  | cons c t ih =>
    simp [splitAtLastDot, ih]

theorem splitAtLastDot_eq_some (s b a : List Char)
    (h : splitAtLastDot s = some (b, a)) : s = b ++ '.' :: a ∧ '.' ∉ a := by
  induction s generalizing b a with
  | nil => simp [splitAtLastDot] at h
  | cons c rest ih =>
    simp only [splitAtLastDot] at h
    cases hr : splitAtLastDot rest with
    | some p =>
      obtain ⟨b', a'⟩ := p
      rw [hr] at h
      simp only [Option.some_inj, Prod.mk.injEq] at h
      obtain ⟨hb, ha⟩ := h
      obtain ⟨hs, hfree⟩ := ih b' a' hr
      subst hb; subst ha; subst hs
      exact ⟨rfl, hfree⟩
    | none =>
      rw [hr] at h
      by_cases hc : c = '.'
      · rw [if_pos hc] at h
        simp only [Option.some_inj, Prod.mk.injEq] at h
        obtain ⟨hb, ha⟩ := h
        subst hb; subst ha; subst hc
        exact ⟨rfl, (splitAtLastDot_eq_none_iff rest).mp hr⟩
      · rw [if_neg hc] at h
        cases h

/-- Model of Rust `Path::file_stem` applied to a plain file name (no `/`):
the part before the last dot, or the whole name when there is no dot or the
only dot is leading; `""`, `"."` and `".."` have no file name at all. -/
def fileStemOfName (name : List Char) : Option (List Char) :=
  if name = [] ∨ name = ['.'] ∨ name = ['.', '.'] then none
  else
    match splitAtLastDot name with
    | none => some name
    | some (b, _) => if b = [] then some name else some b

/-- Model of Rust `Path::extension` applied to a plain file name (no `/`). -/
def extOfName (name : List Char) : Option (List Char) :=
  if name = [] ∨ name = ['.'] ∨ name = ['.', '.'] then none
  else
    match splitAtLastDot name with
    | none => none
    | some (b, a) => if b = [] then none else some a

/-- Extension with its leading dot, or empty — the shape
`path.extension().map(|e| format!(".{}", e)).unwrap_or_default()` used
throughout the source. -/
def extDotOfName (name : List Char) : List Char :=
  match extOfName name with
  | some e => '.' :: e
  | none => []

/-- Model of Rust `Path::file_name` on a `/`-separated path: the last
component.  (Deviation: Rust ignores a trailing separator; this model
returns `none` there.  No code path in the claims produces such paths.) -/
def fileNameOfPath (p : List Char) : Option (List Char) :=
  match (splitSep '/' p).getLast? with
  | none => none
  | some last => if last = [] ∨ last = ['.'] ∨ last = ['.', '.'] then none else some last

/-- Model of the `parent().unwrap_or(Path::new(""))` shape: the path with its
last component removed. -/
def parentOfPath (p : List Char) : List Char :=
  joinSep '/' (splitSep '/' p).dropLast

/-- Model of `pathdiff::diff_paths(path, base)` for the supported case where
`path` lies strictly inside `base`; other inputs are modelled as `none`
(matching the source's treatment of a `None` result as `InvalidPath`). -/
def diffPaths (path base : List Char) : Option (List Char) :=
  if (base ++ ['/']).isPrefixOf path then some (path.drop (base.length + 1)) else none

/-- Decimal rendering of a chunk index, modelling Rust `format!("{}", n)`. -/
def natDigits (n : Nat) : List Char :=
  if h : n < 10 then [Char.ofNat (48 + n)]
  else
    have : n / 10 < n := Nat.div_lt_self (by omega) (by omega)
    natDigits (n / 10) ++ [Char.ofNat (48 + n % 10)]

/-- Model of `str::rfind(pat)`: the start index of the last occurrence of
`pat` as a contiguous substring, if any. -/
def rfindSubstring (s pat : List Char) : Option Nat :=
  ((List.range (s.length + 1)).filter (fun i => pat.isPrefixOf (s.drop i))).getLast?

/-! ## `FileNaming` (crates/chrysalis-core/src/file_naming.rs) -/

/-- Model of `FileNaming::add_hash`: `filename.ext` becomes
`filename.{hash}.ext`. -/
def add_hash (filename hash : List Char) : List Char :=
  let stem := (fileStemOfName filename).getD []
  stem ++ '.' :: hash ++ extDotOfName filename

/-- Model of `FileNaming::add_chunk_suffix`: `stem.ext` becomes
`stem.chunk{N}.ext`. -/
def add_chunk_suffix (hashedFilename : List Char) (chunkIndex : Nat) : List Char :=
  let stem := (fileStemOfName hashedFilename).getD []
  stem ++ '.' :: ('c' :: 'h' :: 'u' :: 'n' :: 'k' :: natDigits chunkIndex)
    ++ extDotOfName hashedFilename

/-- Model of `FileNaming::extract_hash`: the last dot-segment of the file
stem when the stem has at least two segments and that segment is exactly 8
ASCII hex digits. -/
def extract_hash (filename : List Char) : Option (List Char) :=
  match fileStemOfName filename with
  | none => none
  | some stem =>
    let parts := splitSep '.' stem
    if parts.length < 2 then none
    else
      match parts.getLast? with
      | none => none
      | some last =>
        if last.length = 8 ∧ last.all isAsciiHexDigit then some last else none

/-- Model of `FileNaming::get_original_name`: strip a `.chunkN` suffix from
the stem (cutting at the last occurrence of the substring `.chunk`), then
strip a trailing 8-hex-digit segment, then reattach the extension. -/
def get_original_name (filename : List Char) : List Char :=
  let ext := extDotOfName filename
  let stem := (fileStemOfName filename).getD []
  let stem₁ :=
    match rfindSubstring stem ('.' :: 'c' :: 'h' :: 'u' :: 'n' :: 'k' :: []) with
    | some idx => stem.take idx
    | none => stem
  let parts := splitSep '.' stem₁
  let stem₂ :=
    if 2 ≤ parts.length then
      match parts.getLast? with
      | some last =>
        if last.length = 8 ∧ last.all isAsciiHexDigit then
          joinSep '.' parts.dropLast
        else stem₁
      | none => stem₁
    else stem₁
  stem₂ ++ ext

/-! ## Framework-protected files (crates/chrysalis-core/src/utils.rs) -/

/-- Model of `is_flutter_framework_file`. -/
def is_flutter_framework_file (name : List Char) : Bool :=
  name = "flutter_service_worker.js".toList ∨
  name = "manifest.json".toList ∨
  name = "version.json".toList

/-! ## MD5 (the `md5` crate used by `calculate_hash`, RFC 1321) -/

/-- Truncate to a 32-bit word. -/
def w32 (x : Nat) : Nat := x % 2 ^ 32

/-- Left rotation of a 32-bit word. -/
def rotl32 (x n : Nat) : Nat := (x * 2 ^ n + x / 2 ^ (32 - n)) % 2 ^ 32

/-- Bitwise complement of a 32-bit word. -/
def not32 (x : Nat) : Nat := Nat.xor x (2 ^ 32 - 1)

/-- The MD5 sine-derived constant table. -/
def md5K : List Nat :=
  [0xd76aa478, 0xe8c7b756, 0x242070db, 0xc1bdceee,
   0xf57c0faf, 0x4787c62a, 0xa8304613, 0xfd469501,
   0x698098d8, 0x8b44f7af, 0xffff5bb1, 0x895cd7be,
   0x6b901122, 0xfd987193, 0xa679438e, 0x49b40821,
   0xf61e2562, 0xc040b340, 0x265e5a51, 0xe9b6c7aa,
   0xd62f105d, 0x02441453, 0xd8a1e681, 0xe7d3fbc8,
   0x21e1cde6, 0xc33707d6, 0xf4d50d87, 0x455a14ed,
   0xa9e3e905, 0xfcefa3f8, 0x676f02d9, 0x8d2a4c8a,
   0xfffa3942, 0x8771f681, 0x6d9d6122, 0xfde5380c,
   0xa4beea44, 0x4bdecfa9, 0xf6bb4b60, 0xbebfbc70,
   0x289b7ec6, 0xeaa127fa, 0xd4ef3085, 0x04881d05,
   0xd9d4d039, 0xe6db99e5, 0x1fa27cf8, 0xc4ac5665,
   0xf4292244, 0x432aff97, 0xab9423a7, 0xfc93a039,
   0x655b59c3, 0x8f0ccc92, 0xffeff47d, 0x85845dd1,
   0x6fa87e4f, 0xfe2ce6e0, 0xa3014314, 0x4e0811a1,
   0xf7537e82, 0xbd3af235, 0x2ad7d2bb, 0xeb86d391]

/-- The MD5 per-round shift table. -/
def md5S : List Nat :=
  [7, 12, 17, 22, 7, 12, 17, 22, 7, 12, 17, 22, 7, 12, 17, 22,
   5, 9, 14, 20, 5, 9, 14, 20, 5, 9, 14, 20, 5, 9, 14, 20,
   4, 11, 16, 23, 4, 11, 16, 23, 4, 11, 16, 23, 4, 11, 16, 23,
   6, 10, 15, 21, 6, 10, 15, 21, 6, 10, 15, 21, 6, 10, 15, 21]

/-- Round function of MD5 (selects F, G, H or I by the step index). -/
def md5F (i b c d : Nat) : Nat :=
  if i < 16 then Nat.lor (Nat.land b c) (Nat.land (not32 b) d)
  else if i < 32 then Nat.lor (Nat.land d b) (Nat.land (not32 d) c)
  else if i < 48 then Nat.xor (Nat.xor b c) d
  else Nat.xor c (Nat.lor b (not32 d))

/-- Message-word index of MD5 step `i`. -/
def md5G (i : Nat) : Nat :=
  if i < 16 then i
  else if i < 32 then (5 * i + 1) % 16
  else if i < 48 then (3 * i + 5) % 16
  else (7 * i) % 16

/-- Little-endian 32-bit word `j` of a 64-byte block. -/
def leWordAt (block : List Nat) (j : Nat) : Nat :=
  block.getD (4 * j) 0 + 256 * block.getD (4 * j + 1) 0 +
    65536 * block.getD (4 * j + 2) 0 + 16777216 * block.getD (4 * j + 3) 0

/-- One of the 64 MD5 steps. -/
def md5Step (block : List Nat) (st : Nat × Nat × Nat × Nat) (i : Nat) :
    Nat × Nat × Nat × Nat :=
  let a := st.1
  let b := st.2.1
  let c := st.2.2.1
  let d := st.2.2.2
  let f := (md5F i b c d + a + md5K.getD i 0 + leWordAt block (md5G i)) % 2 ^ 32
  (d, (b + rotl32 f (md5S.getD i 0)) % 2 ^ 32, b, c)

/-- Process one 64-byte block. -/
def md5Block (st : Nat × Nat × Nat × Nat) (block : List Nat) :
    Nat × Nat × Nat × Nat :=
  let r := (List.range 64).foldl (md5Step block) st
  ((st.1 + r.1) % 2 ^ 32, (st.2.1 + r.2.1) % 2 ^ 32,
   (st.2.2.1 + r.2.2.1) % 2 ^ 32, (st.2.2.2 + r.2.2.2) % 2 ^ 32)

/-- Low `count` bytes of a value, little-endian. -/
def leBytes (count v : Nat) : List Nat :=
  (List.range count).map (fun i => v / 2 ^ (8 * i) % 256)

/-- MD5 padding: a `0x80` byte, zeros to 56 mod 64, then the 64-bit
little-endian bit length. -/
def md5Pad (msg : List Nat) : List Nat :=
  msg ++ 128 :: List.replicate ((120 - (msg.length + 1) % 64) % 64) 0
    ++ leBytes 8 (msg.length * 8 % 2 ^ 64)

/-- Fuel-indexed body of `splitIntoChunks`; the fuel is always instantiated
with the list length, so the zero-fuel-on-cons case is unreachable. -/
def splitIntoChunks.go {α : Type} (size : Nat) : Nat → List α → List (List α)
  | _, [] => []
  | 0, _ :: _ => []
  | fuel + 1, a :: t => (a :: t).take size :: splitIntoChunks.go size fuel ((a :: t).drop size)

/-- Split a list into contiguous runs of `size` elements (the last run may be
shorter).  Used both for MD5 blocks and as the model of
`ChunkPlugin::split_into_chunks`, whose `while` loop advances by `size`
per iteration (that loop does not terminate for `size = 0`; the model is
only stated and instantiated for positive `size`). -/
def splitIntoChunks {α : Type} (size : Nat) (content : List α) : List (List α) :=
  if size = 0 then [] else splitIntoChunks.go size content.length content

theorem splitIntoChunks.go_fuel {α : Type} (size : Nat) (hs : size ≠ 0) :
    ∀ (f₁ f₂ : Nat) (l : List α), l.length ≤ f₁ → l.length ≤ f₂ →
      splitIntoChunks.go size f₁ l = splitIntoChunks.go size f₂ l := by
  intro f₁
  induction f₁ with
  | zero =>
    intro f₂ l h₁ _
    have : l = [] := List.length_eq_zero.mp (Nat.le_zero.mp h₁)
    subst this
    cases f₂ <;> rfl
  | succ f₁ ih =>
    intro f₂ l h₁ h₂
    cases l with
    | nil => cases f₂ <;> rfl
    | cons a t =>
      cases f₂ with
      | zero => simp at h₂
      | succ f₂ =>
        show (a :: t).take size :: splitIntoChunks.go size f₁ ((a :: t).drop size) =
          (a :: t).take size :: splitIntoChunks.go size f₂ ((a :: t).drop size)
        have hd : ((a :: t).drop size).length ≤ f₁ := by
          simp only [List.length_drop, List.length_cons]
          simp only [List.length_cons] at h₁
          omega
        have hd2 : ((a :: t).drop size).length ≤ f₂ := by
          simp only [List.length_drop, List.length_cons]
          simp only [List.length_cons] at h₂
          omega
        rw [ih f₂ ((a :: t).drop size) hd hd2]

theorem splitIntoChunks_nil {α : Type} (s : Nat) :
    splitIntoChunks s ([] : List α) = [] := by
  unfold splitIntoChunks
  split
  · rfl
  · rfl

theorem splitIntoChunks_cons {α : Type} (s : Nat) (hs : s ≠ 0) (a : α) (t : List α) :
    splitIntoChunks s (a :: t) =
      (a :: t).take s :: splitIntoChunks s ((a :: t).drop s) := by
  unfold splitIntoChunks
  rw [if_neg hs, if_neg hs]
  show (a :: t).take s :: splitIntoChunks.go s t.length ((a :: t).drop s) = _
  rw [splitIntoChunks.go_fuel s hs t.length ((a :: t).drop s).length ((a :: t).drop s)
    (by simp only [List.length_drop, List.length_cons]; omega) le_rfl]

/-- The MD5 initial state. -/
def md5Init : Nat × Nat × Nat × Nat := (0x67452301, 0xefcdab89, 0x98badcfe, 0x10325476)

/-- The 16 digest bytes of a message. -/
def md5Bytes (msg : List Nat) : List Nat :=
  let r := (splitIntoChunks 64 (md5Pad msg)).foldl md5Block md5Init
  leBytes 4 r.1 ++ leBytes 4 r.2.1 ++ leBytes 4 r.2.2.1 ++ leBytes 4 r.2.2.2

/-- Lowercase hex digit character for a value below 16. -/
def hexCharLower (n : Nat) : Char :=
  if n < 10 then Char.ofNat (48 + n) else Char.ofNat (87 + n)

/-- Two lowercase hex characters of a byte. -/
def byteHex (b : Nat) : List Char := [hexCharLower (b / 16), hexCharLower (b % 16)]

/-- The 32-character lowercase hex rendering of the MD5 digest — the
`format!("{:x}", digest)` step of `calculate_hash`. -/
def md5Hex (msg : List Nat) : List Char := ((md5Bytes msg).map byteHex).flatten

/-- Model of `calculate_hash` (crates/chrysalis-core/src/utils.rs): the hex
digest truncated to `length.min(hash.len())` characters. -/
def calculate_hash (content : List Nat) (length : Nat) : List Char :=
  let hash := md5Hex content
  hash.take (min length hash.length)

/-! ## Configuration (crates/chrysalis-config) -/

/-- Configuration error; only the variant produced by validation is needed.
Models `ConfigError::InvalidValue { field, reason }`. -/
inductive ConfigErr where
  | invalidValue (field reason : List Char)
deriving DecidableEq

/-- Model of `BuildConfig` (crates/chrysalis-config/src/build.rs). -/
structure BuildConfig where
  build_dir : List Char
  chunk_size_kb : Nat
  min_chunk_size_kb : Nat
  hash_length : Nat
  clean_before_build : Bool
  exclude_patterns : List (List Char)
  verbose : Bool
  parallel_jobs : Nat
deriving DecidableEq

/-- The `Default` impl of `BuildConfig`. -/
def buildConfigDefault : BuildConfig where
  build_dir := "build/web".toList
  chunk_size_kb := 400
  min_chunk_size_kb := 400
  hash_length := 8
  clean_before_build := true
  exclude_patterns := ["*.map".toList, "*.txt".toList]
  verbose := false
  parallel_jobs := 0

/-- Model of `BuildConfig::validate`. -/
def BuildConfig.validate (c : BuildConfig) : Except ConfigErr Unit :=
  if c.chunk_size_kb = 0 then
    .error (.invalidValue "build.chunk_size_kb".toList
      "chunk size must be greater than 0".toList)
  else if c.min_chunk_size_kb = 0 then
    .error (.invalidValue "build.min_chunk_size_kb".toList
      "min chunk size must be greater than 0".toList)
  else if c.hash_length = 0 ∨ c.hash_length > 32 then
    .error (.invalidValue "build.hash_length".toList
      "hash length must be between 1 and 32".toList)
  else if c.build_dir = [] then
    .error (.invalidValue "build.build_dir".toList
      "build directory cannot be empty".toList)
  else .ok ()

/-- Model of `BuildConfig::chunk_size_bytes`. -/
def BuildConfig.chunk_size_bytes (c : BuildConfig) : Nat := c.chunk_size_kb * 1024

/-- Model of `BuildConfig::min_chunk_size_bytes`. -/
def BuildConfig.min_chunk_size_bytes (c : BuildConfig) : Nat := c.min_chunk_size_kb * 1024

/-- Model of `ProjectConfig` (all fields optional, no validation). -/
structure ProjectConfig where
  name : Option (List Char)
  version : Option (List Char)
  description : Option (List Char)
deriving DecidableEq

def projectConfigDefault : ProjectConfig := ⟨none, none, none⟩

/-- Model of `ProjectConfig::validate`. -/
def ProjectConfig.validate (_c : ProjectConfig) : Except ConfigErr Unit := .ok ()

/-- Model of `EnvConfig`; the Rust field named after the variable-name
prefix is rendered `envPrefix` here. -/
structure EnvConfig where
  envPrefix : List Char
  whitelist : List (List Char)
deriving DecidableEq

def envConfigDefault : EnvConfig := ⟨"PUBLIC_".toList, []⟩

/-- Model of `EnvConfig::validate`. -/
def EnvConfig.validate (c : EnvConfig) : Except ConfigErr Unit :=
  if c.envPrefix = [] then
    .error (.invalidValue "env.prefix".toList "prefix cannot be empty".toList)
  else .ok ()

/-- Model of `FlutterConfig` restricted to the fields its `validate` reads
(the remaining fields only feed the external build command). -/
structure FlutterConfig where
  target_dir : List Char
  base_href : Option (List Char)
deriving DecidableEq

def flutterConfigDefault : FlutterConfig := ⟨"build/web".toList, none⟩

/-- Model of `FlutterConfig::validate`. -/
def FlutterConfig.validate (c : FlutterConfig) : Except ConfigErr Unit :=
  if c.target_dir = [] then
    .error (.invalidValue "flutter.target_dir".toList
      "target directory cannot be empty".toList)
  else
    match c.base_href with
    | some b =>
      if ¬ (b.head? = some '/' ∧ b.getLast? = some '/') then
        .error (.invalidValue "flutter.base_href".toList
          "base_href must start and end with a slash".toList)
      else .ok ()
    | none => .ok ()

/-- Model of `MinifyConfig`. -/
structure MinifyConfig where
  enabled : Bool
  minify_js : Bool
  minify_css : Bool
  minify_html : Bool
  minify_json : Bool
deriving DecidableEq

def minifyConfigDefault : MinifyConfig := ⟨true, true, true, true, true⟩

/-- Model of `HashConfig`; the Rust fields named after the glob lists are
rendered `includeGlobs` / `excludeGlobs` here. -/
structure HashConfig where
  enabled : Bool
  includeGlobs : List (List Char)
  excludeGlobs : List (List Char)
deriving DecidableEq

def hashConfigDefault : HashConfig := ⟨true, ["*.js".toList, "*.css".toList], ["*.map".toList]⟩

/-- Model of `ChunkConfig`; glob-list fields renamed as in `HashConfig`. -/
structure ChunkConfig where
  enabled : Bool
  includeGlobs : List (List Char)
  excludeGlobs : List (List Char)
deriving DecidableEq

def chunkConfigDefault : ChunkConfig := ⟨true, ["*.js".toList], ["flutter_service_worker.js".toList]⟩

/-- Model of `InjectConfig`. -/
structure InjectConfig where
  enabled : Bool
  inline_manifest : Bool
deriving DecidableEq

def injectConfigDefault : InjectConfig := ⟨true, true⟩

/-- Model of `PluginsConfig` (its `validate` accepts everything). -/
structure PluginsConfig where
  minify : MinifyConfig
  hash : HashConfig
  chunk : ChunkConfig
  inject : InjectConfig
deriving DecidableEq

def pluginsConfigDefault : PluginsConfig :=
  ⟨minifyConfigDefault, hashConfigDefault, chunkConfigDefault, injectConfigDefault⟩

/-- Model of `PluginsConfig::validate`. -/
def PluginsConfig.validate (_c : PluginsConfig) : Except ConfigErr Unit := .ok ()

/-- Model of `WebConfig`. -/
structure WebConfig where
  enabled : Bool
  build_dir : List Char
  exclude_patterns : List (List Char)
  flutter : FlutterConfig
  plugins : PluginsConfig
deriving DecidableEq

def webConfigDefault : WebConfig :=
  ⟨true, "build/web".toList, ["*.map".toList, "*.txt".toList],
   flutterConfigDefault, pluginsConfigDefault⟩

/-- Model of `WebConfig::validate`. -/
def WebConfig.validate (c : WebConfig) : Except ConfigErr Unit :=
  if ¬ c.enabled then .ok ()
  else if c.build_dir = [] then
    .error (.invalidValue "platforms.web.build_dir".toList
      "build directory cannot be empty".toList)
  else do
    c.flutter.validate
    c.plugins.validate

/-- Model of `PlatformsConfig`. -/
structure PlatformsConfig where
  web : WebConfig
deriving DecidableEq

def platformsConfigDefault : PlatformsConfig := ⟨webConfigDefault⟩

/-- Model of `PlatformsConfig::validate`. -/
def PlatformsConfig.validate (c : PlatformsConfig) : Except ConfigErr Unit :=
  c.web.validate

/-- Model of `PlatformsConfig::has_enabled_platform`. -/
def PlatformsConfig.has_enabled_platform (c : PlatformsConfig) : Bool :=
  c.web.enabled

/-- Model of the top-level `Config`. -/
structure Config where
  project : ProjectConfig
  build : BuildConfig
  env : EnvConfig
  platforms : PlatformsConfig
deriving DecidableEq

def configDefault : Config :=
  ⟨projectConfigDefault, buildConfigDefault, envConfigDefault, platformsConfigDefault⟩

/-- Model of `Config::validate`. -/
def Config.validate (c : Config) : Except ConfigErr Unit := do
  c.project.validate
  c.build.validate
  c.env.validate
  c.platforms.validate
  if ¬ c.platforms.has_enabled_platform then
    .error (.invalidValue "platforms".toList
      "at least one platform must be enabled".toList)
  else .ok ()

/-! ## File records and build context (crates/chrysalis-core) -/

/-- Model of `FileInfo` (crates/chrysalis-core/src/file_info.rs).  The byte
content is the lazily loaded cache; `modified` is set by `set_content`. -/
structure FileRec where
  absolute : List Char
  relative : List Char
  name : List Char
  size : Nat
  dir : List Char
  ext : List Char
  content : Option (List Nat)
  modified : Bool
deriving DecidableEq

/-- Model of `FileInfo::new`: name, parent directory and dotted extension are
derived from the relative path. -/
def FileRec.new (absolute relative : List Char) (size : Nat) : FileRec where
  absolute := absolute
  relative := relative
  name := (fileNameOfPath relative).getD []
  size := size
  dir := parentOfPath relative
  ext := extDotOfName ((fileNameOfPath relative).getD [])
  content := none
  modified := false

/-- Model of `FileInfo::is_js`. -/
def FileRec.is_js (f : FileRec) : Bool := f.ext = ".js".toList

/-- Model of `FileInfo::is_css`. -/
def FileRec.is_css (f : FileRec) : Bool := f.ext = ".css".toList

/-- Model of `FileInfo::is_html`. -/
def FileRec.is_html (f : FileRec) : Bool := f.ext = ".html".toList

/-- Model of `FileInfo::is_json`. -/
def FileRec.is_json (f : FileRec) : Bool := f.ext = ".json".toList

/-- Model of `FileInfo::set_content`: updates size, stores the bytes and
marks the record modified. -/
def FileRec.set_content (f : FileRec) (content : List Nat) : FileRec :=
  { f with size := content.length, content := some content, modified := true }

/-- Model of `BuildStats` (the wall-clock start time is not modelled). -/
structure BuildStats where
  total_files : Nat
  minified_files : Nat
  hashed_files : Nat
  chunked_files : Nat
  total_chunks : Nat
  bytes_saved : Nat
  original_size : Nat
  final_size : Nat
deriving DecidableEq

def statsNew : BuildStats := ⟨0, 0, 0, 0, 0, 0, 0, 0⟩

/-- Model of `BuildStats::record_minification` (`saturating_sub` is plain
truncated subtraction on `Nat`). -/
def BuildStats.record_minification (s : BuildStats) (original minified : Nat) : BuildStats :=
  { s with minified_files := s.minified_files + 1,
           bytes_saved := s.bytes_saved + (original - minified) }

/-- Model of `BuildStats::record_hash`. -/
def BuildStats.record_hash (s : BuildStats) : BuildStats :=
  { s with hashed_files := s.hashed_files + 1 }

/-- Model of `BuildStats::record_chunk`. -/
def BuildStats.record_chunk (s : BuildStats) (numChunks : Nat) : BuildStats :=
  { s with chunked_files := s.chunked_files + 1,
           total_chunks := s.total_chunks + numChunks }

/-- Model of `BuildError` (crates/chrysalis-core/src/error.rs), variants the
modelled operations produce. -/
inductive BuildErr where
  | directoryNotFound (path : List Char)
  | fileNotFound (path : List Char)
  | fileAlreadyExists (path : List Char)
  | invalidPath (path : List Char)
  | io (path : List Char)
deriving DecidableEq

/-- Model of `BuildContext` (crates/chrysalis-core/src/context.rs); the
`dependencies` map is never touched by the claims and is omitted. -/
structure BuildContext where
  build_dir : List Char
  config : BuildConfig
  files : List (List Char × FileRec)
  file_mapping : List (List Char × List Char)
  chunks : List (List Char × List (List Char))
  stats : BuildStats
deriving DecidableEq

/-- Model of `BuildContext::add_file`. -/
def add_file (ctx : BuildContext) (file : FileRec) : BuildContext × Except BuildErr Unit :=
  if (lookupA ctx.files file.absolute).isSome then
    (ctx, .error (.fileAlreadyExists file.absolute))
  else
    ({ ctx with files := insertA ctx.files file.absolute file }, .ok ())

/-- Model of `BuildContext::remove_file`. -/
def remove_file (ctx : BuildContext) (path : List Char) : BuildContext × Option FileRec :=
  match lookupA ctx.files path with
  | some f => ({ ctx with files := removeA ctx.files path }, some f)
  | none => (ctx, none)

/-- Model of `BuildContext::add_chunk_info`. -/
def add_chunk_info (ctx : BuildContext) (parent : List Char)
    (chunkPaths : List (List Char)) : BuildContext :=
  { ctx with chunks := insertA ctx.chunks parent chunkPaths,
             stats := ctx.stats.record_chunk chunkPaths.length }

/-- Model of `BuildContext::rename_file`.  The `&mut self` receiver is made
explicit: the function returns the context alongside the `Result`, because
the source mutates the map (it removes the record) before attempting the
filesystem rename, and that mutation survives an early error return.  The
filesystem call itself is external; its success is the `fsRenameOk`
parameter. -/
def rename_file (fsRenameOk : Bool) (ctx : BuildContext) (oldPath newPath : List Char) :
    BuildContext × Except BuildErr Unit :=
  match lookupA ctx.files oldPath with
  | none => (ctx, .error (.fileNotFound oldPath))
  | some file =>
    let files₁ := removeA ctx.files oldPath
    if fsRenameOk = false then
      ({ ctx with files := files₁ }, .error (.io oldPath))
    else
      match diffPaths newPath ctx.build_dir with
      | none => ({ ctx with files := files₁ }, .error (.invalidPath newPath))
      | some newRelative =>
        let file' := { file with
          absolute := newPath,
          relative := newRelative,
          name := (fileNameOfPath newPath).getD [],
          dir := parentOfPath newRelative }
        let files₂ := insertA files₁ newPath file'
        let mapping₂ := insertA ctx.file_mapping file.relative newRelative
        let chunks₁ :=
          match lookupA ctx.chunks oldPath with
          | some chunkPaths => insertA (removeA ctx.chunks oldPath) newPath chunkPaths
          | none => ctx.chunks
        let chunks₂ := chunks₁.map
          (fun e => (e.1, e.2.map (fun c => if c = oldPath then newPath else c)))
        ({ ctx with files := files₂, file_mapping := mapping₂, chunks := chunks₂ }, .ok ())

/-! ## Plugin stages (crates/chrysalis-plugins) -/

/-- Error type of the plugin crate, restricted to the variants the modelled
paths produce; core errors are wrapped as in the `anyhow` conversion. -/
inductive PluginErr where
  | chunkingFailed (file : List Char) (reason : List Char)
  | core (e : BuildErr)
deriving DecidableEq

/-- A build context together with the on-disk bytes under the build root.
Filesystem writes are modelled as total map updates. -/
structure PipeState where
  ctx : BuildContext
  disk : List (List Char × List Nat)
deriving DecidableEq

/-- Model of `FileInfo::load_content`: the cached bytes, or the bytes on
disk; `none` models a read error (file missing). -/
def load_content (f : FileRec) (disk : List (List Char × List Nat)) : Option (List Nat) :=
  match f.content with
  | some c => some c
  | none => lookupA disk f.absolute

/-- Model of `HashPlugin::should_hash`.  The compiled glob patterns come from
an external crate and are abstracted as boolean predicates on the relative
path. -/
def should_hash (excludePats includePats : List (List Char → Bool))
    (relativePath : List Char) : Bool :=
  if (match fileNameOfPath relativePath with
      | some nm => is_flutter_framework_file nm
      | none => false) then false
  else if excludePats.any (fun p => p relativePath) then false
  else includePats.any (fun p => p relativePath)

/-- Model of the per-file rename target of `HashPlugin::execute` phase 1:
`add_hash(file.name, calculate_hash(content, hash_length))`. -/
def hash_new_name (name : List Char) (content : List Nat) (hashLength : Nat) : List Char :=
  add_hash name (calculate_hash content hashLength)

/-- Model of `ChunkPlugin::should_chunk`; glob patterns abstracted as for
`should_hash`. -/
def should_chunk (minSize : Nat) (excludePats includePats : List (List Char → Bool))
    (f : FileRec) : Bool :=
  if is_flutter_framework_file f.name ∨ f.name = "index.html".toList then false
  else if f.size < minSize then false
  else if excludePats.any (fun p => p f.relative) then false
  else includePats.any (fun p => p f.relative)

/-- The snapshot `files_to_chunk` taken by `ChunkPlugin::execute` before any
mutation. -/
def files_to_chunk (minSize : Nat) (excludePats includePats : List (List Char → Bool))
    (ctx : BuildContext) : List (List Char) :=
  ((ctx.files.map Prod.snd).filter (should_chunk minSize excludePats includePats)).map
    (·.absolute)

/-- The chunk-writing loop of `ChunkPlugin::execute`: writes chunk `i` to
`parent_dir / add_chunk_suffix(file_name, i)`, registers the new record, and
accumulates the chunk paths in ascending index order. -/
def writeChunksLoop (buildDir parentDir fileName filePath : List Char) :
    PipeState → Nat → List (List Nat) → List (List Char) →
    Except PluginErr (PipeState × List (List Char))
  | st, _, [], acc => .ok (st, acc)
  | st, i, cc :: rest, acc =>
    let chunkName := add_chunk_suffix fileName i
    let chunkPath := parentDir ++ '/' :: chunkName
    let st₁ : PipeState := { st with disk := insertA st.disk chunkPath cc }
    match diffPaths chunkPath buildDir with
    | none => .error (.chunkingFailed filePath "Failed to compute relative path".toList)
    | some relative =>
      let chunkFile := FileRec.new chunkPath relative cc.length
      let r := add_file st₁.ctx chunkFile
      match r.2 with
      | .error e => .error (.core e)
      | .ok _ =>
        writeChunksLoop buildDir parentDir fileName filePath
          { st₁ with ctx := r.1 } (i + 1) rest (acc ++ [chunkPath])

/-- Model of the per-file body of `ChunkPlugin::execute` for one snapshot
path.  The generated loader stub is an external-shaped text whose exact
bytes are irrelevant to the claims; it is abstracted as a function of the
file name (`generate_stub` is pure in the source). -/
def chunk_execute_file (chunkSize : Nat) (stub : List Char → List Nat)
    (st : PipeState) (filePath : List Char) : Except PluginErr PipeState :=
  match lookupA st.ctx.files filePath with
  | none => .ok st
  | some file =>
    match load_content file st.disk with
    | none => .ok st
    | some content =>
      let file₀ := { file with content := some content }
      let st₀ : PipeState :=
        { st with ctx := { st.ctx with files := insertA st.ctx.files filePath file₀ } }
      let chunksList := splitIntoChunks chunkSize content
      if chunksList.length ≤ 1 then .ok st₀
      else
        let parentDir := parentOfPath file₀.absolute
        match writeChunksLoop st₀.ctx.build_dir parentDir file₀.name filePath
            st₀ 0 chunksList [] with
        | .error e => .error e
        | .ok (st₁, chunkPaths) =>
          let st₂ : PipeState := { st₁ with ctx := add_chunk_info st₁.ctx filePath chunkPaths }
          if (".js".toList).isSuffixOf file₀.name then
            let stubContent := stub file₀.name
            match lookupA st₂.ctx.files filePath with
            | some f₂ =>
              .ok { st₂ with
                disk := insertA st₂.disk filePath stubContent,
                ctx := { st₂.ctx with
                  files := insertA st₂.ctx.files filePath (f₂.set_content stubContent) } }
            | none => .ok { st₂ with disk := insertA st₂.disk filePath stubContent }
          else
            if (lookupA st₂.disk filePath).isSome then
              .ok { st₂ with
                disk := removeA st₂.disk filePath,
                ctx := (remove_file st₂.ctx filePath).1 }
            else .error (.chunkingFailed filePath "Failed to delete original file".toList)

/-- Model of the per-file body of `MinifyPlugin::execute`.  The four backend
minifiers are external crates, abstracted as result-valued functions; a
backend `Err` is mapped to `none` exactly as the source's logged skip. -/
def minify_execute_file (cfg : MinifyConfig) (skipIndexHtml : Bool)
    (mjs mcss mhtml mjson : List Nat → Except (List Char) (List Nat))
    (st : PipeState) (filePath : List Char) : PipeState :=
  match lookupA st.ctx.files filePath with
  | none => st
  | some file =>
    if skipIndexHtml ∧ file.is_html ∧ file.name = "index.html".toList then st
    else
      match load_content file st.disk with
      | none => st
      | some content =>
        let file₀ := { file with content := some content }
        let st₀ : PipeState :=
          { st with ctx := { st.ctx with files := insertA st.ctx.files filePath file₀ } }
        let originalSize := file₀.size
        let minified : Option (List Nat) :=
          if file₀.is_js ∧ cfg.minify_js then (mjs content).toOption
          else if file₀.is_css ∧ cfg.minify_css then (mcss content).toOption
          else if file₀.is_html ∧ cfg.minify_html then (mhtml content).toOption
          else if file₀.is_json ∧ cfg.minify_json then (mjson content).toOption
          else none
        match minified with
        | none => st₀
        | some mc =>
          { st₀ with
            disk := insertA st₀.disk filePath mc,
            ctx := { st₀.ctx with
              files := insertA st₀.ctx.files filePath (file₀.set_content mc),
              stats := st₀.ctx.stats.record_minification originalSize mc.length } }

/-- Model of `MinifyPlugin::execute`: fold the per-file body over the
snapshot of absolute paths; disabled configuration is a no-op.  With disk
writes modelled as total map updates the stage has no failing path: backend
errors are consumed file-locally. -/
def minify_execute (cfg : MinifyConfig) (skipIndexHtml : Bool)
    (mjs mcss mhtml mjson : List Nat → Except (List Char) (List Nat))
    (st : PipeState) : PipeState :=
  if ¬ cfg.enabled then st
  else
    (st.ctx.files.map (fun e => e.2.absolute)).foldl
      (minify_execute_file cfg skipIndexHtml mjs mcss mhtml mjson) st

/-! ## Spec-side recognisers for the hash-extraction claim -/

/-- The recogniser exactly as the claim words it: the penultimate dot-segment
of the name when that segment is exactly `hashLength` lowercase hex
characters, `none` otherwise. -/
def specHashRecogniser (hashLength : Nat) (name : List Char) : Option (List Char) :=
  let parts := splitSep '.' name
  if 2 ≤ parts.length then
    let penult := parts.getD (parts.length - 2) []
    if penult.length = hashLength ∧ penult.all isLowerHexDigit then some penult else none
  else none

/-- What `extract_hash` actually recognises, phrased over the full dot-split
of the name rather than through `file_stem`: the penultimate segment of a
name with at least three dot-segments, or the segment after the dot of a
hidden-file name (exactly two segments, the first empty); the segment must
be exactly 8 hex characters of either case. -/
def specExtractHashAmended (name : List Char) : Option (List Char) :=
  let parts := splitSep '.' name
  if 3 ≤ parts.length then
    let penult := parts.getD (parts.length - 2) []
    if penult.length = 8 ∧ penult.all isAsciiHexDigit then some penult else none
  else if parts.length = 2 ∧ parts.getD 0 [] = [] then
    let last := parts.getD 1 []
    if last.length = 8 ∧ last.all isAsciiHexDigit then some last else none
  else none

/-- A `BuildConfig` that is default except for its hash length. -/
def buildConfigWithHashLength (hl : Nat) : BuildConfig :=
  { buildConfigDefault with hash_length := hl }

/-- A `Config` that is default except for its hash length. -/
def configWithHashLength (hl : Nat) : Config :=
  { configDefault with build := buildConfigWithHashLength hl }

/-- A one-file context under build root `b`, used as the concrete input of
the rename-atomicity analysis. -/
def c1Context : BuildContext where
  build_dir := "b".toList
  config := buildConfigDefault
  files := [("b/app.js".toList, FileRec.new "b/app.js".toList "app.js".toList 3)]
  file_mapping := []
  chunks := []
  stats := statsNew

/-- Decidable equality for `Except`, needed to evaluate the models on
concrete inputs. -/
instance {e a : Type} [DecidableEq e] [DecidableEq a] : DecidableEq (Except e a) := fun x y =>
  match x, y with
  | .error u, .error v =>
    if h : u = v then isTrue (by rw [h]) else isFalse (fun hh => h (Except.error.inj hh))
  | .error _, .ok _ => isFalse (fun hh => Except.noConfusion hh)
  | .ok _, .error _ => isFalse (fun hh => Except.noConfusion hh)
  | .ok u, .ok v =>
    if h : u = v then isTrue (by rw [h]) else isFalse (fun hh => h (Except.ok.inj hh))

/-! ## Claim theorems -/

/-- C2: for every configuration of glob patterns and every input file, a file
whose terminal name is one of the framework-protected names
(`flutter_service_worker.js`, `manifest.json`, `version.json`) is rejected
by both gates: `should_hash` returns false for its relative path and
`should_chunk` returns false for its record, so such a file is never renamed
(hence never keyed in `rename_map`) and never chunked (hence never keyed in
`chunks`). -/
theorem c2_framework_protected_never_hashed_or_chunked
    (excludePats includePats excludePats' includePats' : List (List Char → Bool))
    (minSize : Nat) (rel nm : List Char) (f : FileRec)
    (hrel : fileNameOfPath rel = some nm)
    (hnm : is_flutter_framework_file nm = true)
    (hf : is_flutter_framework_file f.name = true) :
    should_hash excludePats includePats rel = false ∧
    should_chunk minSize excludePats' includePats' f = false := by
  constructor
  · unfold should_hash
    rw [hrel]
    simp [hnm]
  · unfold should_chunk
    simp [hf]

/-- Witness for C2 at the concrete protected file `manifest.json`. -/
theorem c2_framework_protected_witness :
    should_hash [] [] "manifest.json".toList = false ∧
    should_chunk 0 [] []
      (FileRec.new "b/manifest.json".toList "manifest.json".toList 3) = false :=
  c2_framework_protected_never_hashed_or_chunked [] [] [] [] 0
    "manifest.json".toList "manifest.json".toList
    (FileRec.new "b/manifest.json".toList "manifest.json".toList 3)
    (by decide) (by decide) (by decide)

/-- C1 (divergence evidence): `rename_file` is not atomic on a filesystem
failure.  On the concrete one-file context, a failing filesystem rename
makes the call return an `Io` error, yet the record for the old path has
already been removed from the files index and is not restored: the context
differs from its pre-call state, contradicting the claim that every error
leaves the state exactly as it was. -/
theorem c1_rename_io_failure_loses_record :
    (lookupA c1Context.files "b/app.js".toList).isSome = true ∧
    (rename_file false c1Context "b/app.js".toList "b/app.abc12345.js".toList).2 =
      .error (.io "b/app.js".toList) ∧
    lookupA (rename_file false c1Context "b/app.js".toList
      "b/app.abc12345.js".toList).1.files "b/app.js".toList = none ∧
    (rename_file false c1Context "b/app.js".toList
      "b/app.abc12345.js".toList).1 ≠ c1Context := by decide

/-- C9: with every other field at its default, `BuildConfig::validate` (and
`Config::validate` through it) rejects the configuration with the
`InvalidValue` error on field `build.hash_length` exactly when the hash
length is 0 or exceeds 32, and accepts it otherwise. -/
theorem c9_validate_hash_length (hl : Nat) :
    ((buildConfigWithHashLength hl).validate =
        .error (.invalidValue "build.hash_length".toList
          "hash length must be between 1 and 32".toList) ↔
      (hl = 0 ∨ 32 < hl)) ∧
    ((buildConfigWithHashLength hl).validate = .ok () ↔ ¬ (hl = 0 ∨ 32 < hl)) ∧
    ((configWithHashLength hl).validate =
        .error (.invalidValue "build.hash_length".toList
          "hash length must be between 1 and 32".toList) ↔
      (hl = 0 ∨ 32 < hl)) ∧
    ((configWithHashLength hl).validate = .ok () ↔ ¬ (hl = 0 ∨ 32 < hl)) := by
  have hbuild : (buildConfigWithHashLength hl).validate =
      if hl = 0 ∨ 32 < hl then
        .error (.invalidValue "build.hash_length".toList
          "hash length must be between 1 and 32".toList)
      else .ok () := by
    by_cases hbad : hl = 0 ∨ 32 < hl
    · rw [if_pos hbad]
      simp only [BuildConfig.validate, buildConfigWithHashLength, buildConfigDefault]
      rw [if_neg (by decide), if_neg (by decide), if_pos hbad]
    · rw [if_neg hbad]
      simp only [BuildConfig.validate, buildConfigWithHashLength, buildConfigDefault]
      rw [if_neg (by decide), if_neg (by decide), if_neg hbad, if_neg (by decide)]
  have hb2 : (configWithHashLength hl).build = buildConfigWithHashLength hl := rfl
  have hconfig : (configWithHashLength hl).validate =
      if hl = 0 ∨ 32 < hl then
        .error (.invalidValue "build.hash_length".toList
          "hash length must be between 1 and 32".toList)
      else .ok () := by
    by_cases hbad : hl = 0 ∨ 32 < hl
    · have hb := hbuild
      rw [if_pos hbad] at hb
      rw [if_pos hbad]
      simp [Config.validate, ProjectConfig.validate, hb2, hb, Bind.bind, Except.bind]
    · have hb := hbuild
      rw [if_neg hbad] at hb
      rw [if_neg hbad]
      simp [Config.validate, ProjectConfig.validate, hb2, hb, Bind.bind, Except.bind,
        EnvConfig.validate, PlatformsConfig.validate, WebConfig.validate,
        FlutterConfig.validate, PluginsConfig.validate,
        PlatformsConfig.has_enabled_platform, configWithHashLength, configDefault,
        envConfigDefault, platformsConfigDefault, webConfigDefault, flutterConfigDefault]
  rw [hbuild, hconfig]
  by_cases hbad : hl = 0 ∨ 32 < hl <;> simp [hbad]

theorem splitIntoChunks_flatten {α : Type} (s : Nat) (hs : 0 < s) (c : List α) :
    (splitIntoChunks s c).flatten = c := by
  have key : ∀ n (c : List α), c.length ≤ n → (splitIntoChunks s c).flatten = c := by
    intro n
    induction n with
    | zero =>
      intro c hc
      have : c = [] := List.length_eq_zero.mp (Nat.le_zero.mp hc)
      subst this
      simp [splitIntoChunks_nil]
    | succ n ih =>
      intro c hc
      cases c with
      | nil => simp [splitIntoChunks_nil]
      | cons a t =>
        have hc' : t.length + 1 ≤ n + 1 := by simpa using hc
        rw [splitIntoChunks_cons s (Nat.pos_iff_ne_zero.mp hs)]
        rw [List.flatten_cons]
        rw [ih ((a :: t).drop s)
          (by simp only [List.length_drop, List.length_cons]; omega)]
        exact List.take_append_drop s (a :: t)
  exact key c.length c le_rfl

theorem splitIntoChunks_length {α : Type} (s : Nat) (hs : 0 < s) (c : List α) :
    (splitIntoChunks s c).length = (c.length + s - 1) / s := by
  have hz : (s - 1) / s = 0 := Nat.div_eq_of_lt (by omega)
  have key : ∀ n (c : List α), c.length ≤ n →
      (splitIntoChunks s c).length = (c.length + s - 1) / s := by
    intro n
    induction n with
    | zero =>
      intro c hc
      have : c = [] := List.length_eq_zero.mp (Nat.le_zero.mp hc)
      subst this
      simp [splitIntoChunks_nil, hz]
    | succ n ih =>
      intro c hc
      cases c with
      | nil => simp [splitIntoChunks_nil, hz]
      | cons a t =>
        have hc' : t.length + 1 ≤ n + 1 := by simpa using hc
        rw [splitIntoChunks_cons s (Nat.pos_iff_ne_zero.mp hs)]
        rw [List.length_cons]
        rw [ih ((a :: t).drop s)
          (by simp only [List.length_drop, List.length_cons]; omega)]
        simp only [List.length_drop, List.length_cons]
        set L := t.length + 1 with hL
        have hrhs : (L + s - 1) / s = (L - 1) / s + 1 := by
          have h1 : L + s - 1 = (L - 1) + s := by omega
          rw [h1, Nat.add_div_right _ hs]
        rw [hrhs]
        by_cases hls : L ≤ s
        · have hdz : L - s = 0 := by omega
          rw [hdz]
          rw [show (0 : Nat) + s - 1 = s - 1 by omega, hz]
          have h2 : (L - 1) / s = 0 := Nat.div_eq_of_lt (by omega)
          rw [h2]
        · have hlhs : (L - s + s - 1) / s = (L - 1 - s) / s + 1 := by
            have h2 : L - s + s - 1 = (L - 1 - s) + s := by omega
            rw [h2, Nat.add_div_right _ hs]
          have hstep : (L - 1) / s = (L - 1 - s) / s + 1 := by
            conv_lhs => rw [show L - 1 = (L - 1 - s) + s by omega]
            rw [Nat.add_div_right _ hs]
          rw [hlhs, hstep]
  exact key c.length c le_rfl

theorem splitIntoChunks_getD_length {α : Type} (s : Nat) (hs : 0 < s) (c : List α) :
    ∀ i, i < (splitIntoChunks s c).length →
      ((splitIntoChunks s c).getD i []).length =
        if i + 1 < (splitIntoChunks s c).length then s else c.length - s * i := by
  have key : ∀ n (c : List α), c.length ≤ n →
      ∀ i, i < (splitIntoChunks s c).length →
        ((splitIntoChunks s c).getD i []).length =
          if i + 1 < (splitIntoChunks s c).length then s else c.length - s * i := by
    intro n
    induction n with
    | zero =>
      intro c hc i hi
      have : c = [] := List.length_eq_zero.mp (Nat.le_zero.mp hc)
      subst this
      simp [splitIntoChunks_nil] at hi
    | succ n ih =>
      intro c hc i hi
      cases c with
      | nil => simp [splitIntoChunks_nil] at hi
      | cons a t =>
        have hc' : t.length + 1 ≤ n + 1 := by simpa using hc
        rw [splitIntoChunks_cons s (Nat.pos_iff_ne_zero.mp hs)] at hi ⊢
        cases i with
        | zero =>
          simp only [List.getD_cons_zero, List.length_cons, List.length_take]
          by_cases h2 : 0 + 1 < (splitIntoChunks s ((a :: t).drop s)).length + 1
          · rw [if_pos h2]
            have hne : (splitIntoChunks s ((a :: t).drop s)).length ≠ 0 := by omega
            have hdrop : (a :: t).drop s ≠ [] := by
              intro hdz
              rw [hdz, splitIntoChunks_nil] at hne
              exact hne rfl
            have hlt : s < t.length + 1 := by
              by_contra hle
              push_neg at hle
              exact hdrop (List.drop_eq_nil_of_le (by simpa using hle))
            omega
          · rw [if_neg h2]
            have hzl : (splitIntoChunks s ((a :: t).drop s)).length = 0 := by omega
            have hdz : (a :: t).drop s = [] := by
              cases hd : (a :: t).drop s with
              | nil => rfl
              | cons x y =>
                rw [hd, splitIntoChunks_cons s (Nat.pos_iff_ne_zero.mp hs)] at hzl
                simp at hzl
            have hfits : t.length + 1 ≤ s := by
              have hld := List.length_drop s (a :: t)
              rw [hdz] at hld
              simp only [List.length_nil, List.length_cons] at hld
              omega
            omega
        | succ i =>
          simp only [List.getD_cons_succ] at hi ⊢
          rw [List.length_cons] at hi
          have hi' : i < (splitIntoChunks s ((a :: t).drop s)).length := by omega
          rw [ih ((a :: t).drop s)
            (by simp only [List.length_drop, List.length_cons]; omega) i hi']
          simp only [List.length_drop, List.length_cons]
          by_cases h2 : i + 1 < (splitIntoChunks s ((a :: t).drop s)).length
          · rw [if_pos h2, if_pos (by omega)]
          · rw [if_neg h2, if_neg (by omega)]
            have hmul : s * (i + 1) = s * i + s := by ring
            omega
  exact key c.length c le_rfl

/-- C3: for positive chunk size `s`, `split_into_chunks` produces
`ceil(len/s)` chunks whose concatenation in order is exactly the input, each
chunk of length `s` except the last, which holds the remainder. -/
theorem c3_split_into_chunks_spec {α : Type} (s : Nat) (hs : 0 < s) (c : List α) :
    (splitIntoChunks s c).length = (c.length + s - 1) / s ∧
    (splitIntoChunks s c).flatten = c ∧
    (∀ i, i < (splitIntoChunks s c).length →
      ((splitIntoChunks s c).getD i []).length =
        if i + 1 < (splitIntoChunks s c).length then s else c.length - s * i) :=
  ⟨splitIntoChunks_length s hs c, splitIntoChunks_flatten s hs c,
   splitIntoChunks_getD_length s hs c⟩

/-- Witness for C3: splitting five bytes into chunks of two gives three
chunks of sizes 2, 2, 1 that concatenate back to the input. -/
theorem c3_split_into_chunks_witness :
    (splitIntoChunks 2 ([10, 11, 12, 13, 14] : List Nat)).length =
      (([10, 11, 12, 13, 14] : List Nat).length + 2 - 1) / 2 ∧
    (splitIntoChunks 2 ([10, 11, 12, 13, 14] : List Nat)).flatten =
      [10, 11, 12, 13, 14] ∧
    (∀ i, i < (splitIntoChunks 2 ([10, 11, 12, 13, 14] : List Nat)).length →
      ((splitIntoChunks 2 ([10, 11, 12, 13, 14] : List Nat)).getD i []).length =
        if i + 1 < (splitIntoChunks 2 ([10, 11, 12, 13, 14] : List Nat)).length then 2
        else ([10, 11, 12, 13, 14] : List Nat).length - 2 * i) :=
  c3_split_into_chunks_spec 2 (by decide) [10, 11, 12, 13, 14]

theorem length_leBytes (count v : Nat) : (leBytes count v).length = count := by
  simp [leBytes]

theorem mem_leBytes_lt (count v : Nat) : ∀ b ∈ leBytes count v, b < 256 := by
  intro b hb
  simp only [leBytes, List.mem_map] at hb
  obtain ⟨i, _, hi⟩ := hb
  omega

theorem md5Bytes_length (msg : List Nat) : (md5Bytes msg).length = 16 := by
  simp [md5Bytes, length_leBytes]

theorem mem_md5Bytes_lt (msg : List Nat) : ∀ b ∈ md5Bytes msg, b < 256 := by
  intro b hb
  simp only [md5Bytes, List.mem_append] at hb
  rcases hb with ((h | h) | h) | h
  · exact mem_leBytes_lt _ _ b h
  · exact mem_leBytes_lt _ _ b h
  · exact mem_leBytes_lt _ _ b h
  · exact mem_leBytes_lt _ _ b h

theorem isLowerHexDigit_hexCharLower (n : Nat) (h : n < 16) :
    isLowerHexDigit (hexCharLower n) = true := by
  interval_cases n <;> decide

theorem md5Hex_length (msg : List Nat) : (md5Hex msg).length = 32 := by
  have key : ∀ l : List Nat, ((l.map byteHex).flatten).length = 2 * l.length := by
    intro l
    induction l with
    | nil => simp
    | cons b t ih =>
      simp only [List.map_cons, List.flatten_cons, List.length_append, ih]
      simp [byteHex]
      omega
  unfold md5Hex
  rw [key, md5Bytes_length]

theorem mem_md5Hex_lower (msg : List Nat) :
    ∀ ch ∈ md5Hex msg, isLowerHexDigit ch = true := by
  intro ch hch
  simp only [md5Hex, List.mem_flatten, List.mem_map] at hch
  obtain ⟨seg, ⟨b, hb, hseg⟩, hmem⟩ := hch
  subst hseg
  have hblt : b < 256 := mem_md5Bytes_lt msg b hb
  simp only [byteHex, List.mem_cons, List.not_mem_nil, or_false] at hmem
  rcases hmem with h | h
  · rw [h]
    exact isLowerHexDigit_hexCharLower _ (by omega)
  · rw [h]
    exact isLowerHexDigit_hexCharLower _ (by omega)

set_option maxRecDepth 100000 in
set_option maxHeartbeats 4000000 in
/-- Concrete separation instance used by C4: the truncated digests of the
one-byte contents `0x00` and `0x01` differ. -/
theorem c4_md5_separates :
    calculate_hash ([0] : List Nat) 8 ≠ calculate_hash ([1] : List Nat) 8 := by
  decide

/-- C4: the hash stage's rename target for a file named `name` with content
`content` is `add_hash(name, h)` where `h` is the first `L` characters of
the lowercase hexadecimal MD5 digest of the content; the digest is a pure
function of `(content, L)` (identical inputs give identical hashed names),
and on a concrete pair of one-byte contents differing in one bit the
truncated digests differ. -/
theorem c4_hash_stage_digest (name : List Char) (content : List Nat) (L : Nat)
    (h1 : 1 ≤ L) (h2 : L ≤ 32) :
    hash_new_name name content L = add_hash name ((md5Hex content).take L) ∧
    calculate_hash content L = (md5Hex content).take L ∧
    (calculate_hash content L).length = L ∧
    (∀ ch ∈ calculate_hash content L, isLowerHexDigit ch = true) ∧
    (∀ content₂ : List Nat, content₂ = content →
      hash_new_name name content₂ L = hash_new_name name content L) ∧
    calculate_hash ([0] : List Nat) 8 ≠ calculate_hash ([1] : List Nat) 8 := by
  have hmin : min L (md5Hex content).length = L := by
    rw [md5Hex_length]
    omega
  have hch : calculate_hash content L = (md5Hex content).take L := by
    simp only [calculate_hash]
    rw [hmin]
  refine ⟨by unfold hash_new_name; rw [hch], hch, ?_, ?_, ?_, ?_⟩
  · rw [hch, List.length_take, md5Hex_length]
    omega
  · intro ch hmem
    rw [hch] at hmem
    exact mem_md5Hex_lower content ch (List.take_subset L (md5Hex content) hmem)
  · intro content₂ he
    rw [he]
  · exact c4_md5_separates

theorem is_js_false_of_css {f : FileRec} (h : f.is_css = true) : f.is_js = false := by
  unfold FileRec.is_css at h
  unfold FileRec.is_js
  simp only [decide_eq_true_eq] at h
  rw [h]
  decide

theorem is_js_false_of_html {f : FileRec} (h : f.is_html = true) : f.is_js = false := by
  unfold FileRec.is_html at h
  unfold FileRec.is_js
  simp only [decide_eq_true_eq] at h
  rw [h]
  decide

theorem is_css_false_of_html {f : FileRec} (h : f.is_html = true) : f.is_css = false := by
  unfold FileRec.is_html at h
  unfold FileRec.is_css
  simp only [decide_eq_true_eq] at h
  rw [h]
  decide

theorem is_js_false_of_json {f : FileRec} (h : f.is_json = true) : f.is_js = false := by
  unfold FileRec.is_json at h
  unfold FileRec.is_js
  simp only [decide_eq_true_eq] at h
  rw [h]
  decide

theorem is_css_false_of_json {f : FileRec} (h : f.is_json = true) : f.is_css = false := by
  unfold FileRec.is_json at h
  unfold FileRec.is_css
  simp only [decide_eq_true_eq] at h
  rw [h]
  decide

theorem is_html_false_of_json {f : FileRec} (h : f.is_json = true) : f.is_html = false := by
  unfold FileRec.is_json at h
  unfold FileRec.is_html
  simp only [decide_eq_true_eq] at h
  rw [h]
  decide

theorem cond_false_of_ext {f : FileRec} {P : Prop} {a b : List Char}
    (h1 : decide (f.ext = a) = true) (hab : a ≠ b) :
    ¬ (decide (f.ext = b) = true ∧ P) := by
  intro hcon
  have hx := of_decide_eq_true hcon.1
  have hy := of_decide_eq_true h1
  rw [hy] at hx
  exact hab hx

theorem minify_execute_file_of_backendError
    (cfg : MinifyConfig) (skip : Bool)
    (mjs mcss mhtml mjson : List Nat → Except (List Char) (List Nat))
    (st : PipeState) (filePath : List Char) (f : FileRec) (content : List Nat)
    (hf : lookupA st.ctx.files filePath = some f)
    (hskip : ¬ (skip = true ∧ f.is_html = true ∧ f.name = "index.html".toList))
    (hc : load_content f st.disk = some content)
    (hdisp :
      (f.is_js = true ∧ cfg.minify_js = true ∧ (∃ msg, mjs content = .error msg)) ∨
      (f.is_css = true ∧ cfg.minify_css = true ∧ (∃ msg, mcss content = .error msg)) ∨
      (f.is_html = true ∧ cfg.minify_html = true ∧ (∃ msg, mhtml content = .error msg)) ∨
      (f.is_json = true ∧ cfg.minify_json = true ∧ (∃ msg, mjson content = .error msg))) :
    minify_execute_file cfg skip mjs mcss mhtml mjson st filePath =
      { st with ctx := { st.ctx with
          files := insertA st.ctx.files filePath { f with content := some content } } } := by
  unfold minify_execute_file
  rw [hf]
  simp only []
  rw [if_neg hskip]
  rw [hc]
  simp only [FileRec.is_js, FileRec.is_css, FileRec.is_html, FileRec.is_json]
  rcases hdisp with ⟨h1, h2, msg, he⟩ | ⟨h1, h2, msg, he⟩ | ⟨h1, h2, msg, he⟩ |
    ⟨h1, h2, msg, he⟩
  · unfold FileRec.is_js at h1
    rw [if_pos ⟨h1, h2⟩, he]
    rfl
  · unfold FileRec.is_css at h1
    rw [if_neg (cond_false_of_ext h1 (by decide)), if_pos ⟨h1, h2⟩, he]
    rfl
  · unfold FileRec.is_html at h1
    rw [if_neg (cond_false_of_ext h1 (by decide)),
      if_neg (cond_false_of_ext h1 (by decide)), if_pos ⟨h1, h2⟩, he]
    rfl
  · unfold FileRec.is_json at h1
    rw [if_neg (cond_false_of_ext h1 (by decide)),
      if_neg (cond_false_of_ext h1 (by decide)),
      if_neg (cond_false_of_ext h1 (by decide)), if_pos ⟨h1, h2⟩, he]
    rfl

/-- C8: when the minifier backend dispatched for a file's extension fails,
the per-file step of the minify stage leaves the disk, the statistics and
every other record untouched; the file's own record changes only by the
lazily-loaded content cache (size, name, and the `modified` flag are
preserved), and the stage continues rather than failing. -/
theorem c8_minify_backend_failure_recovered
    (cfg : MinifyConfig) (skip : Bool)
    (mjs mcss mhtml mjson : List Nat → Except (List Char) (List Nat))
    (st : PipeState) (filePath : List Char) (f : FileRec) (content : List Nat)
    (hf : lookupA st.ctx.files filePath = some f)
    (hskip : ¬ (skip = true ∧ f.is_html = true ∧ f.name = "index.html".toList))
    (hc : load_content f st.disk = some content)
    (hdisp :
      (f.is_js = true ∧ cfg.minify_js = true ∧ (∃ msg, mjs content = .error msg)) ∨
      (f.is_css = true ∧ cfg.minify_css = true ∧ (∃ msg, mcss content = .error msg)) ∨
      (f.is_html = true ∧ cfg.minify_html = true ∧ (∃ msg, mhtml content = .error msg)) ∨
      (f.is_json = true ∧ cfg.minify_json = true ∧ (∃ msg, mjson content = .error msg))) :
    (minify_execute_file cfg skip mjs mcss mhtml mjson st filePath).disk = st.disk ∧
    (minify_execute_file cfg skip mjs mcss mhtml mjson st filePath).ctx.stats =
      st.ctx.stats ∧
    (minify_execute_file cfg skip mjs mcss mhtml mjson st filePath).ctx.chunks =
      st.ctx.chunks ∧
    lookupA (minify_execute_file cfg skip mjs mcss mhtml mjson st filePath).ctx.files
      filePath = some { f with content := some content } ∧
    (∀ q, q ≠ filePath →
      lookupA (minify_execute_file cfg skip mjs mcss mhtml mjson st filePath).ctx.files q =
        lookupA st.ctx.files q) ∧
    ({ f with content := some content } : FileRec).modified = f.modified ∧
    ({ f with content := some content } : FileRec).size = f.size := by
  rw [minify_execute_file_of_backendError cfg skip mjs mcss mhtml mjson st filePath f
    content hf hskip hc hdisp]
  refine ⟨rfl, rfl, rfl, ?_, ?_, rfl, rfl⟩
  · exact lookupA_insertA_self st.ctx.files filePath _
  · intro q hq
    exact lookupA_insertA_ne st.ctx.files filePath q _ hq

/-- A one-file JavaScript pipe state used as the concrete minify input. -/
def c8File : FileRec := FileRec.new "b/app.js".toList "app.js".toList 1

/-- The concrete pipe state whose only file is `c8File`, with one byte of it
on disk. -/
def c8State : PipeState where
  ctx :=
    { build_dir := "b".toList
      config := buildConfigDefault
      files := [("b/app.js".toList, c8File)]
      file_mapping := []
      chunks := []
      stats := statsNew }
  disk := [("b/app.js".toList, [7])]

/-- A minifier backend that always fails. -/
def c8FailingBackend : List Nat → Except (List Char) (List Nat) :=
  fun _ => .error "boom".toList

/-- A minifier backend that returns its input unchanged. -/
def c8IdBackend : List Nat → Except (List Char) (List Nat) := fun c => .ok c

/-- Witness for C8 at the concrete one-file state with a failing JS backend. -/
theorem c8_minify_backend_failure_witness :
    (minify_execute_file minifyConfigDefault false c8FailingBackend c8IdBackend
      c8IdBackend c8IdBackend c8State "b/app.js".toList).disk = c8State.disk ∧
    (minify_execute_file minifyConfigDefault false c8FailingBackend c8IdBackend
      c8IdBackend c8IdBackend c8State "b/app.js".toList).ctx.stats = c8State.ctx.stats ∧
    (minify_execute_file minifyConfigDefault false c8FailingBackend c8IdBackend
      c8IdBackend c8IdBackend c8State "b/app.js".toList).ctx.chunks = c8State.ctx.chunks ∧
    lookupA (minify_execute_file minifyConfigDefault false c8FailingBackend c8IdBackend
      c8IdBackend c8IdBackend c8State "b/app.js".toList).ctx.files "b/app.js".toList =
      some { c8File with content := some [7] } ∧
    (∀ q, q ≠ "b/app.js".toList →
      lookupA (minify_execute_file minifyConfigDefault false c8FailingBackend c8IdBackend
        c8IdBackend c8IdBackend c8State "b/app.js".toList).ctx.files q =
        lookupA c8State.ctx.files q) ∧
    ({ c8File with content := some [7] } : FileRec).modified = c8File.modified ∧
    ({ c8File with content := some [7] } : FileRec).size = c8File.size :=
  c8_minify_backend_failure_recovered minifyConfigDefault false c8FailingBackend
    c8IdBackend c8IdBackend c8IdBackend c8State "b/app.js".toList c8File [7]
    (by decide) (by decide) (by decide)
    (Or.inl ⟨by decide, by decide, ⟨"boom".toList, rfl⟩⟩)

/-- Witness for C4 at a concrete name, content and hash length. -/
theorem c4_hash_stage_digest_witness :
    hash_new_name "main.js".toList [104, 105] 8 =
      add_hash "main.js".toList ((md5Hex [104, 105]).take 8) ∧
    calculate_hash [104, 105] 8 = (md5Hex [104, 105]).take 8 ∧
    (calculate_hash [104, 105] 8).length = 8 ∧
    (∀ ch ∈ calculate_hash [104, 105] 8, isLowerHexDigit ch = true) ∧
    (∀ content₂ : List Nat, content₂ = [104, 105] →
      hash_new_name "main.js".toList content₂ 8 =
        hash_new_name "main.js".toList [104, 105] 8) ∧
    calculate_hash ([0] : List Nat) 8 ≠ calculate_hash ([1] : List Nat) 8 :=
  c4_hash_stage_digest "main.js".toList [104, 105] 8 (by decide) (by decide)

theorem mem_removeA {K V : Type} [DecidableEq K] (m : List (K × V)) (k : K) (e : K × V) :
    e ∈ removeA m k ↔ e ∈ m ∧ ¬ e.1 = k := by
  simp [removeA, List.mem_filter]

/-- C6: a successful `rename_file` updates the record's absolute, relative
and name fields to the new path, appends `(old_relative, new_relative)` to
the rename map, and patches every occurrence of the old absolute path inside
`chunks` — as a key and as a list element — to the new path, before
returning. -/
theorem c6_rename_file_success
    (ctx : BuildContext) (oldPath newPath : List Char) (f : FileRec) (newRel : List Char)
    (hf : lookupA ctx.files oldPath = some f)
    (hdiff : diffPaths newPath ctx.build_dir = some newRel)
    (hn : keysNodup ctx.chunks)
    (hnew : lookupA ctx.chunks newPath = none) :
    (rename_file true ctx oldPath newPath).2 = .ok () ∧
    lookupA (rename_file true ctx oldPath newPath).1.files newPath =
      some { f with absolute := newPath, relative := newRel,
                    name := (fileNameOfPath newPath).getD [],
                    dir := parentOfPath newRel } ∧
    lookupA (rename_file true ctx oldPath newPath).1.file_mapping f.relative =
      some newRel ∧
    (∀ p l, (p, l) ∈ ctx.chunks →
      ((if p = oldPath then newPath else p),
        l.map (fun c => if c = oldPath then newPath else c)) ∈
          (rename_file true ctx oldPath newPath).1.chunks) ∧
    (∀ q m, (q, m) ∈ (rename_file true ctx oldPath newPath).1.chunks →
      ∃ p l, (p, l) ∈ ctx.chunks ∧ q = (if p = oldPath then newPath else p) ∧
        m = l.map (fun c => if c = oldPath then newPath else c)) := by
  have hmain : rename_file true ctx oldPath newPath =
      ({ ctx with
          files := insertA (removeA ctx.files oldPath) newPath
            { f with absolute := newPath, relative := newRel,
                     name := (fileNameOfPath newPath).getD [],
                     dir := parentOfPath newRel },
          file_mapping := insertA ctx.file_mapping f.relative newRel,
          chunks :=
            (match lookupA ctx.chunks oldPath with
              | some chunkPaths => insertA (removeA ctx.chunks oldPath) newPath chunkPaths
              | none => ctx.chunks).map
              (fun e : List Char × List (List Char) =>
                (e.1, e.2.map (fun c => if c = oldPath then newPath else c))) },
        .ok ()) := by
    unfold rename_file
    rw [hf]
    simp only []
    rw [if_neg (by decide : ¬ (true = false))]
    rw [hdiff]
  rw [hmain]
  refine ⟨rfl, ?_, ?_, ?_, ?_⟩
  · exact lookupA_insertA_self _ _ _
  · exact lookupA_insertA_self _ _ _
  · intro p l hpl
    simp only []
    by_cases hpo : p = oldPath
    · subst hpo
      cases hlo : lookupA ctx.chunks p with
      | none => exact absurd hpl (lookupA_eq_none_not_mem hlo l)
      | some v =>
        have hlv : l = v := lookupA_unique hn hpl hlo
        subst hlv
        rw [if_pos rfl]
        refine List.mem_map.mpr ⟨(newPath, l), ?_, rfl⟩
        unfold insertA
        exact List.mem_append_right _ (List.mem_cons_self _ _)
    · rw [if_neg hpo]
      cases hlo : lookupA ctx.chunks oldPath with
      | none => exact List.mem_map.mpr ⟨(p, l), hpl, rfl⟩
      | some v =>
        refine List.mem_map.mpr ⟨(p, l), ?_, rfl⟩
        unfold insertA
        refine List.mem_append_left _ ?_
        rw [mem_removeA]
        refine ⟨?_, ?_⟩
        · rw [mem_removeA]
          exact ⟨hpl, hpo⟩
        · intro hpn
          exact (lookupA_eq_none_not_mem hnew l) (hpn ▸ hpl)
  · intro q m hqm
    simp only [] at hqm
    obtain ⟨⟨q₀, l₀⟩, hmem, heq⟩ := List.mem_map.mp hqm
    simp only [Prod.mk.injEq] at heq
    obtain ⟨hq, hm⟩ := heq
    subst hq
    subst hm
    cases hlo : lookupA ctx.chunks oldPath with
    | none =>
      rw [hlo] at hmem
      have hne : ¬ q₀ = oldPath := by
        intro hqo
        exact (lookupA_eq_none_not_mem hlo l₀) (hqo ▸ hmem)
      exact ⟨q₀, l₀, hmem, by rw [if_neg hne], rfl⟩
    | some v =>
      rw [hlo] at hmem
      unfold insertA at hmem
      rcases List.mem_append.mp hmem with hleft | hright
      · rw [mem_removeA] at hleft
        obtain ⟨hin, hnn⟩ := hleft
        rw [mem_removeA] at hin
        obtain ⟨hin2, hno⟩ := hin
        exact ⟨q₀, l₀, hin2, by rw [if_neg hno], rfl⟩
      · simp only [List.mem_cons, List.not_mem_nil, or_false, Prod.mk.injEq] at hright
        obtain ⟨hq0, hl0⟩ := hright
        exact ⟨oldPath, v, lookupA_eq_some_mem hlo, by rw [hq0, if_pos rfl],
          by rw [hl0]⟩

/-- A one-file context whose file parents two chunks, used as the concrete
rename input. -/
def c6Context : BuildContext where
  build_dir := "b".toList
  config := buildConfigDefault
  files := [("b/a.js".toList, FileRec.new "b/a.js".toList "a.js".toList 5)]
  file_mapping := []
  chunks := [("b/a.js".toList, ["b/a.chunk0.js".toList, "b/a.chunk1.js".toList])]
  stats := statsNew

/-- Witness for C6 at the concrete context: renaming `b/a.js` to
`b/a.abc12345.js` succeeds, updates the record and the rename map, and
patches the chunks key. -/
theorem c6_rename_file_success_witness :
    (rename_file true c6Context "b/a.js".toList "b/a.abc12345.js".toList).2 = .ok () ∧
    lookupA (rename_file true c6Context "b/a.js".toList
        "b/a.abc12345.js".toList).1.files "b/a.abc12345.js".toList =
      some { FileRec.new "b/a.js".toList "a.js".toList 5 with
               absolute := "b/a.abc12345.js".toList,
               relative := "a.abc12345.js".toList,
               name := (fileNameOfPath "b/a.abc12345.js".toList).getD [],
               dir := parentOfPath "a.abc12345.js".toList } ∧
    lookupA (rename_file true c6Context "b/a.js".toList
        "b/a.abc12345.js".toList).1.file_mapping
      (FileRec.new "b/a.js".toList "a.js".toList 5).relative =
      some "a.abc12345.js".toList ∧
    (∀ p l, (p, l) ∈ c6Context.chunks →
      ((if p = "b/a.js".toList then "b/a.abc12345.js".toList else p),
        l.map (fun c => if c = "b/a.js".toList then "b/a.abc12345.js".toList else c)) ∈
          (rename_file true c6Context "b/a.js".toList
            "b/a.abc12345.js".toList).1.chunks) ∧
    (∀ q m, (q, m) ∈ (rename_file true c6Context "b/a.js".toList
        "b/a.abc12345.js".toList).1.chunks →
      ∃ p l, (p, l) ∈ c6Context.chunks ∧
        q = (if p = "b/a.js".toList then "b/a.abc12345.js".toList else p) ∧
        m = l.map (fun c => if c = "b/a.js".toList then "b/a.abc12345.js".toList else c)) :=
  c6_rename_file_success c6Context "b/a.js".toList "b/a.abc12345.js".toList
    (FileRec.new "b/a.js".toList "a.js".toList 5) "a.abc12345.js".toList
    (by decide) (by decide) (by unfold keysNodup; decide) (by decide)

theorem length_splitSep_ge_two_of_mem (sep : Char) (l : List Char) (h : sep ∈ l) :
    2 ≤ (splitSep sep l).length := by
  induction l with
  | nil => cases h
  | cons c rest ih =>
    by_cases hc : c = sep
    · simp only [splitSep, if_pos hc, List.length_cons]
      have := length_splitSep_pos sep rest
      omega
    · simp only [splitSep, if_neg hc, List.length_modifyHead]
      rcases List.mem_cons.mp h with h1 | h2
      · exact absurd h1.symm hc
      · exact ih h2

theorem getLast?_eq_getD {α : Type} (l : List α) (d : α) (h : l ≠ []) :
    l.getLast? = some (l.getD (l.length - 1) d) := by
  induction l with
  | nil => exact absurd rfl h
  | cons x t ih =>
    cases t with
    | nil => rfl
    | cons y u =>
      rw [List.getLast?_cons_cons]
      rw [ih (by simp)]
      have hidx : (x :: y :: u : List α).length - 1 = ((y :: u : List α).length - 1) + 1 := by
        simp
      rw [hidx, List.getD_cons_succ]

/-- C5 (counterexample): on the concrete name `a.ABCDEF12.js`, whose
penultimate segment contains uppercase hex digits, `extract_hash` returns
the segment while the claim's recogniser (lowercase-only, at the default
hash length 8) returns `none`: the code accepts uppercase hex digits, which
the claim rules out. -/
theorem c5_extract_hash_counterexample :
    extract_hash "a.ABCDEF12.js".toList = some "ABCDEF12".toList ∧
    specHashRecogniser 8 "a.ABCDEF12.js".toList = none ∧
    (∃ ch ∈ "ABCDEF12".toList, isLowerHexDigit ch = false) ∧
    extract_hash "a.ab12.js".toList = none ∧
    specHashRecogniser 4 "a.ab12.js".toList = some "ab12".toList := by
  refine ⟨by decide, by decide, ⟨'A', by decide, by decide⟩, by decide, by decide⟩

/-- C5 (amended): for every slash-free file name, `extract_hash` agrees with
the corrected recogniser: the penultimate dot-segment of a name with at
least three segments — or, for a hidden-file name whose single dot is
leading, the segment after the dot — exactly when that segment is 8 ASCII
hex characters of either case; the length 8 is hardcoded (the function takes
no length parameter), and uppercase digits are accepted. -/
theorem c5_extract_hash_amended (name : List Char) (hs : '/' ∉ name) :
    extract_hash name = specExtractHashAmended name := by
  by_cases h0 : name = [] ∨ name = ['.'] ∨ name = ['.', '.']
  · rcases h0 with h | h | h <;> subst h <;> decide
  · unfold extract_hash fileStemOfName
    rw [if_neg h0]
    unfold specExtractHashAmended
    cases hsplit : splitAtLastDot name with
    | none =>
      have hdot : '.' ∉ name := (splitAtLastDot_eq_none_iff name).mp hsplit
      simp only []
      rw [splitSep_sepFree '.' name (fun x hx hc => hdot (hc ▸ hx))]
      simp
    | some p =>
      obtain ⟨b, a⟩ := p
      obtain ⟨hname, hafree⟩ := splitAtLastDot_eq_some name b a hsplit
      have hsepa : splitSep '.' a = [a] :=
        splitSep_sepFree '.' a (fun x hx hc => hafree (hc ▸ hx))
      subst hname
      have hparts : splitSep '.' (b ++ '.' :: a) = splitSep '.' b ++ [a] := by
        rw [splitSep_append, hsepa]
      by_cases hb : b = []
      · subst hb
        simp only [List.nil_append] at hparts ⊢
        rw [if_pos (by trivial)]
        simp only []
        have hp2 : splitSep '.' ('.' :: a) = [[], a] := by
          simp [splitSep, hsepa]
        rw [hp2]
        simp
      · simp only []
        rw [if_neg hb]
        simp only []
        rw [hparts]
        by_cases hlen : 2 ≤ (splitSep '.' b).length
        · have hnotlt : ¬ (splitSep '.' b).length < 2 := by omega
          rw [if_neg hnotlt]
          have h3 : 3 ≤ (splitSep '.' b ++ [a]).length := by
            rw [List.length_append]
            simp only [List.length_cons, List.length_nil]
            omega
          rw [if_pos h3]
          have hne : splitSep '.' b ≠ [] := splitSep_ne_nil '.' b
          rw [getLast?_eq_getD (splitSep '.' b) [] hne]
          have hidx : (splitSep '.' b ++ [a]).length - 2 = (splitSep '.' b).length - 1 := by
            rw [List.length_append]
            simp only [List.length_cons, List.length_nil]
            omega
          rw [hidx]
          rw [List.getD_append _ _ _ _ (by omega)]
        · have hlt : (splitSep '.' b).length < 2 := by omega
          rw [if_pos hlt]
          have hlen1 : (splitSep '.' b).length = 1 := by
            have := length_splitSep_pos '.' b
            omega
          have hnot3 : ¬ 3 ≤ (splitSep '.' b ++ [a]).length := by
            rw [List.length_append]
            simp only [List.length_cons, List.length_nil]
            omega
          rw [if_neg hnot3]
          have hbfree : '.' ∉ b := by
            intro hmem
            have := length_splitSep_ge_two_of_mem '.' b hmem
            omega
          have hsb : splitSep '.' b = [b] :=
            splitSep_sepFree '.' b (fun x hx hc => hbfree (hc ▸ hx))
          rw [hsb]
          simp only [List.cons_append, List.nil_append, List.length_cons,
            List.length_singleton, List.getD_cons_zero]
          rw [if_neg (by simp [hb])]

/-- Witness for the amended C5 at a concrete hashed name. -/
theorem c5_extract_hash_amended_witness :
    extract_hash "main.dart.abc12345.js".toList =
      specExtractHashAmended "main.dart.abc12345.js".toList :=
  c5_extract_hash_amended "main.dart.abc12345.js".toList (by decide)

/-- The absolute path of chunk `i` of a parent: `parent_dir / add_chunk_suffix(name, i)`. -/
def chunkPathAt (parentDir fileName : List Char) (i : Nat) : List Char :=
  parentDir ++ '/' :: add_chunk_suffix fileName i

/-- The chunk paths for indices `i₀, i₀+1, …, i₀+n-1`. -/
def chunkPaths (parentDir fileName : List Char) (i₀ n : Nat) : List (List Char) :=
  (List.range n).map (fun j => chunkPathAt parentDir fileName (i₀ + j))

theorem chunkPaths_zero (parentDir fileName : List Char) (i₀ : Nat) :
    chunkPaths parentDir fileName i₀ 0 = [] := rfl

theorem chunkPaths_length (parentDir fileName : List Char) (i₀ n : Nat) :
    (chunkPaths parentDir fileName i₀ n).length = n := by
  simp [chunkPaths]

theorem chunkPaths_succ (parentDir fileName : List Char) (i₀ n : Nat) :
    chunkPaths parentDir fileName i₀ (n + 1) =
      chunkPathAt parentDir fileName i₀ :: chunkPaths parentDir fileName (i₀ + 1) n := by
  unfold chunkPaths
  rw [List.range_succ_eq_map, List.map_cons, List.map_map]
  congr 1
  apply List.map_congr_left
  intro j _
  simp only [Function.comp_apply]
  rw [show i₀ + (j + 1) = i₀ + 1 + j by omega]

theorem writeChunksLoop_spec (buildDir parentDir fileName filePath : List Char)
    (cs : List (List Nat)) :
    ∀ (st : PipeState) (i₀ : Nat) (acc : List (List Char)),
    (chunkPaths parentDir fileName i₀ cs.length).Nodup →
    (∀ q ∈ chunkPaths parentDir fileName i₀ cs.length, lookupA st.ctx.files q = none) →
    (∀ q ∈ chunkPaths parentDir fileName i₀ cs.length,
      (diffPaths q buildDir).isSome = true) →
    ∃ st' : PipeState,
      writeChunksLoop buildDir parentDir fileName filePath st i₀ cs acc =
        .ok (st', acc ++ chunkPaths parentDir fileName i₀ cs.length) ∧
      st'.ctx.build_dir = st.ctx.build_dir ∧
      st'.ctx.chunks = st.ctx.chunks ∧
      st'.ctx.stats = st.ctx.stats ∧
      st'.ctx.config = st.ctx.config ∧
      st'.ctx.file_mapping = st.ctx.file_mapping ∧
      (∀ q, q ∉ chunkPaths parentDir fileName i₀ cs.length →
        lookupA st'.ctx.files q = lookupA st.ctx.files q) ∧
      (∀ q, q ∉ chunkPaths parentDir fileName i₀ cs.length →
        lookupA st'.disk q = lookupA st.disk q) := by
  induction cs with
  | nil =>
    intro st i₀ acc _ _ _
    refine ⟨st, ?_, rfl, rfl, rfl, rfl, rfl, fun q _ => rfl, fun q _ => rfl⟩
    simp [writeChunksLoop, chunkPaths_zero]
  | cons cc rest ih =>
    intro st i₀ acc hnodup hfresh hdiff
    rw [List.length_cons, chunkPaths_succ] at hnodup hfresh hdiff ⊢
    have hd0 := hdiff (chunkPathAt parentDir fileName i₀) (List.mem_cons_self _ _)
    obtain ⟨rel, hrel⟩ := Option.isSome_iff_exists.mp hd0
    have hf0 := hfresh (chunkPathAt parentDir fileName i₀) (List.mem_cons_self _ _)
    have hhead : chunkPathAt parentDir fileName i₀ ∉
        chunkPaths parentDir fileName (i₀ + 1) rest.length :=
      (List.nodup_cons.mp hnodup).1
    have htail : (chunkPaths parentDir fileName (i₀ + 1) rest.length).Nodup :=
      (List.nodup_cons.mp hnodup).2
    have hrel' : diffPaths (parentDir ++ '/' :: add_chunk_suffix fileName i₀) buildDir =
        some rel := hrel
    have hf0' : lookupA st.ctx.files (parentDir ++ '/' :: add_chunk_suffix fileName i₀) =
        none := hf0
    have hred : writeChunksLoop buildDir parentDir fileName filePath st i₀ (cc :: rest) acc =
        writeChunksLoop buildDir parentDir fileName filePath
          { ctx := { st.ctx with
              files := insertA st.ctx.files (parentDir ++ '/' :: add_chunk_suffix fileName i₀)
                (FileRec.new (parentDir ++ '/' :: add_chunk_suffix fileName i₀) rel cc.length) },
            disk := insertA st.disk (parentDir ++ '/' :: add_chunk_suffix fileName i₀) cc }
          (i₀ + 1) rest (acc ++ [parentDir ++ '/' :: add_chunk_suffix fileName i₀]) := by
      conv_lhs => rw [writeChunksLoop]
      simp only [hrel']
      simp only [add_file]
      have habs : (FileRec.new (parentDir ++ '/' :: add_chunk_suffix fileName i₀) rel
          cc.length).absolute = parentDir ++ '/' :: add_chunk_suffix fileName i₀ := rfl
      rw [habs, hf0']
      simp only [Option.isSome_none, Bool.false_eq_true, if_false]
    set path₀ := parentDir ++ '/' :: add_chunk_suffix fileName i₀ with hpath₀
    have hpeq : chunkPathAt parentDir fileName i₀ = path₀ := rfl
    rw [hpeq] at hhead hdiff hfresh ⊢
    set st₂ : PipeState :=
      { ctx := { st.ctx with
          files := insertA st.ctx.files path₀ (FileRec.new path₀ rel cc.length) },
        disk := insertA st.disk path₀ cc } with hst₂
    have hfresh' : ∀ q ∈ chunkPaths parentDir fileName (i₀ + 1) rest.length,
        lookupA st₂.ctx.files q = none := by
      intro q hq
      have hqne : q ≠ path₀ := fun hqp => hhead (hqp ▸ hq)
      show lookupA (insertA st.ctx.files path₀ (FileRec.new path₀ rel cc.length)) q = none
      rw [lookupA_insertA_ne _ _ _ _ hqne]
      exact hfresh q (List.mem_cons_of_mem _ hq)
    have hdiff' : ∀ q ∈ chunkPaths parentDir fileName (i₀ + 1) rest.length,
        (diffPaths q buildDir).isSome = true :=
      fun q hq => hdiff q (List.mem_cons_of_mem _ hq)
    obtain ⟨st', hrun, hb1, hb2, hb3, hb4, hb5, hlookF, hlookD⟩ :=
      ih st₂ (i₀ + 1) (acc ++ [path₀]) htail hfresh' hdiff'
    refine ⟨st', ?_, hb1, hb2, hb3, hb4, hb5, ?_, ?_⟩
    · rw [hred, hrun]
      simp
    · intro q hq
      have hqt : q ∉ chunkPaths parentDir fileName (i₀ + 1) rest.length :=
        fun hmem => hq (List.mem_cons_of_mem _ hmem)
      have hqne : q ≠ path₀ := fun hqp => hq (hqp ▸ List.mem_cons_self _ _)
      rw [hlookF q hqt]
      show lookupA (insertA st.ctx.files path₀ (FileRec.new path₀ rel cc.length)) q =
        lookupA st.ctx.files q
      exact lookupA_insertA_ne _ _ _ _ hqne
    · intro q hq
      have hqt : q ∉ chunkPaths parentDir fileName (i₀ + 1) rest.length :=
        fun hmem => hq (List.mem_cons_of_mem _ hmem)
      have hqne : q ≠ path₀ := fun hqp => hq (hqp ▸ List.mem_cons_self _ _)
      rw [hlookD q hqt]
      show lookupA (insertA st.disk path₀ cc) q = lookupA st.disk q
      exact lookupA_insertA_ne _ _ _ _ hqne


theorem chunk_execute_file_small (chunkSize : Nat) (stub : List Char → List Nat)
    (st : PipeState) (filePath : List Char) (f : FileRec) (content : List Nat)
    (hf : lookupA st.ctx.files filePath = some f)
    (hc : load_content f st.disk = some content)
    (h1 : (splitIntoChunks chunkSize content).length ≤ 1) :
    chunk_execute_file chunkSize stub st filePath =
      .ok { st with ctx := { st.ctx with
        files := insertA st.ctx.files filePath { f with content := some content } } } := by
  unfold chunk_execute_file
  rw [hf]
  simp only []
  rw [hc]
  simp only []
  rw [if_pos h1]

theorem chunk_execute_file_js (chunkSize : Nat) (stub : List Char → List Nat)
    (st : PipeState) (filePath : List Char) (f : FileRec) (content : List Nat)
    (hf : lookupA st.ctx.files filePath = some f)
    (habs : f.absolute = filePath)
    (hc : load_content f st.disk = some content)
    (h2 : 2 ≤ (splitIntoChunks chunkSize content).length)
    (hnodup : (chunkPaths (parentOfPath filePath) f.name 0
      (splitIntoChunks chunkSize content).length).Nodup)
    (hfresh : ∀ q ∈ chunkPaths (parentOfPath filePath) f.name 0
      (splitIntoChunks chunkSize content).length, lookupA st.ctx.files q = none)
    (hdiff : ∀ q ∈ chunkPaths (parentOfPath filePath) f.name 0
      (splitIntoChunks chunkSize content).length,
      (diffPaths q st.ctx.build_dir).isSome = true)
    (hfp : filePath ∉ chunkPaths (parentOfPath filePath) f.name 0
      (splitIntoChunks chunkSize content).length)
    (hjs : (".js".toList).isSuffixOf f.name = true) :
    ∃ st' : PipeState, chunk_execute_file chunkSize stub st filePath = .ok st' ∧
      lookupA st'.ctx.chunks filePath =
        some (chunkPaths (parentOfPath filePath) f.name 0
          (splitIntoChunks chunkSize content).length) ∧
      st'.ctx.stats.chunked_files = st.ctx.stats.chunked_files + 1 ∧
      st'.ctx.stats.total_chunks =
        st.ctx.stats.total_chunks + (splitIntoChunks chunkSize content).length ∧
      lookupA st'.ctx.files filePath =
        some (({ f with content := some content } : FileRec).set_content (stub f.name)) := by
  subst habs
  set n := (splitIntoChunks chunkSize content).length with hn
  set paths := chunkPaths (parentOfPath f.absolute) f.name 0 n with hpaths
  set file₀ : FileRec := { f with content := some content } with hfile₀
  set st₀ : PipeState :=
    { st with ctx := { st.ctx with files := insertA st.ctx.files f.absolute file₀ } } with hst₀
  have hfresh₀ : ∀ q ∈ paths, lookupA st₀.ctx.files q = none := by
    intro q hq
    have hqne : q ≠ f.absolute := fun hqp => hfp (hqp ▸ hq)
    show lookupA (insertA st.ctx.files f.absolute file₀) q = none
    rw [lookupA_insertA_ne _ _ _ _ hqne]
    exact hfresh q hq
  obtain ⟨st₁, hrun, hb1, hb2, hb3, hb4, hb5, hlookF, hlookD⟩ :=
    writeChunksLoop_spec st.ctx.build_dir (parentOfPath f.absolute) f.name f.absolute
      (splitIntoChunks chunkSize content) st₀ 0 [] (by rw [← hn]; exact hnodup)
      (by rw [← hn]; exact hfresh₀) (by rw [← hn]; exact hdiff)
  have hlf : lookupA st₁.ctx.files f.absolute = some file₀ := by
    rw [hlookF f.absolute (by rw [← hn]; exact hfp)]
    exact lookupA_insertA_self _ _ _
  refine ⟨{ st₁ with
      disk := insertA st₁.disk f.absolute (stub f.name),
      ctx := { (add_chunk_info st₁.ctx f.absolute ([] ++ paths)) with
        files := insertA st₁.ctx.files f.absolute (file₀.set_content (stub f.name)) } },
    ?_, ?_, ?_, ?_, ?_⟩
  · unfold chunk_execute_file
    rw [hf]
    simp only []
    rw [hc]
    simp only []
    rw [if_neg (by omega)]
    rw [hrun]
    simp only []
    rw [show (".js".toList).isSuffixOf f.name = true from hjs]
    simp only [if_true]
    have hlf2 : lookupA (add_chunk_info st₁.ctx f.absolute
        ([] ++ chunkPaths (parentOfPath f.absolute) f.name 0
          (splitIntoChunks chunkSize content).length)).files f.absolute = some file₀ := hlf
    rw [hlf2]
    rfl
  · simp only [add_chunk_info]
    rw [lookupA_insertA_self]
    simp
  · simp only [add_chunk_info, BuildStats.record_chunk]
    rw [hb3]
  · simp only [add_chunk_info, BuildStats.record_chunk]
    rw [hb3]
    simp only [List.nil_append]
    rw [hpaths, chunkPaths_length]
  · exact lookupA_insertA_self _ _ _

theorem chunk_execute_file_nonjs (chunkSize : Nat) (stub : List Char → List Nat)
    (st : PipeState) (filePath : List Char) (f : FileRec) (content : List Nat)
    (hf : lookupA st.ctx.files filePath = some f)
    (habs : f.absolute = filePath)
    (hc : load_content f st.disk = some content)
    (h2 : 2 ≤ (splitIntoChunks chunkSize content).length)
    (hnodup : (chunkPaths (parentOfPath filePath) f.name 0
      (splitIntoChunks chunkSize content).length).Nodup)
    (hfresh : ∀ q ∈ chunkPaths (parentOfPath filePath) f.name 0
      (splitIntoChunks chunkSize content).length, lookupA st.ctx.files q = none)
    (hdiff : ∀ q ∈ chunkPaths (parentOfPath filePath) f.name 0
      (splitIntoChunks chunkSize content).length,
      (diffPaths q st.ctx.build_dir).isSome = true)
    (hfp : filePath ∉ chunkPaths (parentOfPath filePath) f.name 0
      (splitIntoChunks chunkSize content).length)
    (hjs : (".js".toList).isSuffixOf f.name = false)
    (hdisk : (lookupA st.disk filePath).isSome = true) :
    ∃ st' : PipeState, chunk_execute_file chunkSize stub st filePath = .ok st' ∧
      lookupA st'.ctx.chunks filePath =
        some (chunkPaths (parentOfPath filePath) f.name 0
          (splitIntoChunks chunkSize content).length) ∧
      st'.ctx.stats.chunked_files = st.ctx.stats.chunked_files + 1 ∧
      st'.ctx.stats.total_chunks =
        st.ctx.stats.total_chunks + (splitIntoChunks chunkSize content).length ∧
      lookupA st'.ctx.files filePath = none ∧
      lookupA st'.disk filePath = none := by
  subst habs
  set n := (splitIntoChunks chunkSize content).length with hn
  set paths := chunkPaths (parentOfPath f.absolute) f.name 0 n with hpaths
  set file₀ : FileRec := { f with content := some content } with hfile₀
  set st₀ : PipeState :=
    { st with ctx := { st.ctx with files := insertA st.ctx.files f.absolute file₀ } } with hst₀
  have hfresh₀ : ∀ q ∈ paths, lookupA st₀.ctx.files q = none := by
    intro q hq
    have hqne : q ≠ f.absolute := fun hqp => hfp (hqp ▸ hq)
    show lookupA (insertA st.ctx.files f.absolute file₀) q = none
    rw [lookupA_insertA_ne _ _ _ _ hqne]
    exact hfresh q hq
  obtain ⟨st₁, hrun, hb1, hb2, hb3, hb4, hb5, hlookF, hlookD⟩ :=
    writeChunksLoop_spec st.ctx.build_dir (parentOfPath f.absolute) f.name f.absolute
      (splitIntoChunks chunkSize content) st₀ 0 [] (by rw [← hn]; exact hnodup)
      (by rw [← hn]; exact hfresh₀) (by rw [← hn]; exact hdiff)
  have hlf : lookupA st₁.ctx.files f.absolute = some file₀ := by
    rw [hlookF f.absolute (by rw [← hn]; exact hfp)]
    exact lookupA_insertA_self _ _ _
  have hld : (lookupA st₁.disk f.absolute).isSome = true := by
    rw [hlookD f.absolute (by rw [← hn]; exact hfp)]
    exact hdisk
  refine ⟨⟨{ (add_chunk_info st₁.ctx f.absolute ([] ++ paths)) with
        files := removeA st₁.ctx.files f.absolute },
      removeA st₁.disk f.absolute⟩,
    ?_, ?_, ?_, ?_, ?_, ?_⟩
  · unfold chunk_execute_file
    rw [hf]
    simp only []
    rw [hc]
    simp only []
    rw [if_neg (by omega)]
    rw [hrun]
    simp only []
    rw [show (".js".toList).isSuffixOf f.name = false from hjs]
    simp only [Bool.false_eq_true, if_false]
    rw [if_pos hld]
    unfold remove_file
    have hlf2 : lookupA (add_chunk_info st₁.ctx f.absolute
        ([] ++ chunkPaths (parentOfPath f.absolute) f.name 0
          (splitIntoChunks chunkSize content).length)).files f.absolute = some file₀ := hlf
    rw [hlf2]
    rfl
  · simp only [add_chunk_info]
    rw [lookupA_insertA_self]
    simp
  · simp only [add_chunk_info, BuildStats.record_chunk]
    rw [hb3]
  · simp only [add_chunk_info, BuildStats.record_chunk]
    rw [hb3]
    simp only [List.nil_append]
    rw [hpaths, chunkPaths_length]
  · exact lookupA_removeA_self _ _
  · exact lookupA_removeA_self _ _

theorem mem_files_to_chunk_iff (minSize : Nat) (ex inc : List (List Char → Bool))
    (ctx : BuildContext) (p : List Char) :
    p ∈ files_to_chunk minSize ex inc ctx ↔
      ∃ f, f ∈ ctx.files.map Prod.snd ∧ should_chunk minSize ex inc f = true ∧
        f.absolute = p := by
  simp only [files_to_chunk, List.mem_map, List.mem_filter]
  constructor
  · rintro ⟨f, ⟨hmem, hsc⟩, habs⟩
    exact ⟨f, hmem, hsc, habs⟩
  · rintro ⟨f, hmem, hsc, habs⟩
    exact ⟨f, ⟨hmem, hsc⟩, habs⟩

theorem should_chunk_iff (minSize : Nat) (ex inc : List (List Char → Bool)) (f : FileRec) :
    should_chunk minSize ex inc f = true ↔
      (is_flutter_framework_file f.name = false ∧ f.name ≠ "index.html".toList ∧
       minSize ≤ f.size ∧ (∀ pat ∈ ex, pat f.relative = false) ∧
       (∃ pat ∈ inc, pat f.relative = true)) := by
  unfold should_chunk
  split_ifs with h1 h2 h3
  · constructor
    · intro hff
      exact absurd hff (by simp)
    · rintro ⟨ha, hb, -, -, -⟩
      exfalso
      rcases h1 with hx | hx
      · rw [ha] at hx
        cases hx
      · exact hb hx
  · constructor
    · intro hff
      exact absurd hff (by simp)
    · rintro ⟨-, -, hsize, -, -⟩
      exfalso
      omega
  · constructor
    · intro hff
      exact absurd hff (by simp)
    · rintro ⟨-, -, -, hex, -⟩
      exfalso
      obtain ⟨pat, hpmem, hpt⟩ := List.any_eq_true.mp h3
      rw [hex pat hpmem] at hpt
      cases hpt
  · push_neg at h1
    constructor
    · intro hany
      obtain ⟨pat, hpmem, hpt⟩ := List.any_eq_true.mp hany
      refine ⟨Bool.eq_false_iff.mpr h1.1, h1.2, by omega, ?_, pat, hpmem, hpt⟩
      intro pat' hp'
      apply Bool.eq_false_iff.mpr
      intro hpt'
      exact h3 (List.any_eq_true.mpr ⟨pat', hp', hpt'⟩)
    · rintro ⟨-, -, -, -, pat, hpmem, hpt⟩
      exact List.any_eq_true.mpr ⟨pat, hpmem, hpt⟩

/-- C7: the chunk stage's snapshot holds exactly the files passing
`should_chunk`; `should_chunk` holds exactly when the file is neither
framework-protected nor `index.html`, is at least `min_chunk_size_bytes`
large, matches no exclude pattern and matches some include pattern; a
passing file whose content splits into at most one chunk is left unchanged
(only its lazy content cache is filled) with no chunk info recorded; and a
passing file splitting into two or more chunks has its chunk list recorded,
the chunk counters bumped, and its record replaced by the loader stub
(script files) or removed together with its bytes on disk (other files). -/
theorem c7_chunk_stage_gate :
    (∀ (minSize : Nat) (ex inc : List (List Char → Bool)) (ctx : BuildContext)
        (p : List Char),
      p ∈ files_to_chunk minSize ex inc ctx ↔
        ∃ f, f ∈ ctx.files.map Prod.snd ∧ should_chunk minSize ex inc f = true ∧
          f.absolute = p) ∧
    (∀ (minSize : Nat) (ex inc : List (List Char → Bool)) (f : FileRec),
      should_chunk minSize ex inc f = true ↔
        (is_flutter_framework_file f.name = false ∧ f.name ≠ "index.html".toList ∧
         minSize ≤ f.size ∧ (∀ pat ∈ ex, pat f.relative = false) ∧
         (∃ pat ∈ inc, pat f.relative = true))) ∧
    (∀ (chunkSize : Nat) (stub : List Char → List Nat) (st : PipeState)
        (filePath : List Char) (f : FileRec) (content : List Nat),
      lookupA st.ctx.files filePath = some f →
      load_content f st.disk = some content →
      (splitIntoChunks chunkSize content).length ≤ 1 →
      chunk_execute_file chunkSize stub st filePath =
        .ok { st with ctx := { st.ctx with
          files := insertA st.ctx.files filePath { f with content := some content } } }) ∧
    (∀ (chunkSize : Nat) (stub : List Char → List Nat) (st : PipeState)
        (filePath : List Char) (f : FileRec) (content : List Nat),
      lookupA st.ctx.files filePath = some f →
      f.absolute = filePath →
      load_content f st.disk = some content →
      2 ≤ (splitIntoChunks chunkSize content).length →
      (chunkPaths (parentOfPath filePath) f.name 0
        (splitIntoChunks chunkSize content).length).Nodup →
      (∀ q ∈ chunkPaths (parentOfPath filePath) f.name 0
        (splitIntoChunks chunkSize content).length, lookupA st.ctx.files q = none) →
      (∀ q ∈ chunkPaths (parentOfPath filePath) f.name 0
        (splitIntoChunks chunkSize content).length,
        (diffPaths q st.ctx.build_dir).isSome = true) →
      filePath ∉ chunkPaths (parentOfPath filePath) f.name 0
        (splitIntoChunks chunkSize content).length →
      (".js".toList).isSuffixOf f.name = true →
      ∃ st' : PipeState, chunk_execute_file chunkSize stub st filePath = .ok st' ∧
        lookupA st'.ctx.chunks filePath =
          some (chunkPaths (parentOfPath filePath) f.name 0
            (splitIntoChunks chunkSize content).length) ∧
        st'.ctx.stats.chunked_files = st.ctx.stats.chunked_files + 1 ∧
        st'.ctx.stats.total_chunks =
          st.ctx.stats.total_chunks + (splitIntoChunks chunkSize content).length ∧
        lookupA st'.ctx.files filePath =
          some (({ f with content := some content } : FileRec).set_content
            (stub f.name))) ∧
    (∀ (chunkSize : Nat) (stub : List Char → List Nat) (st : PipeState)
        (filePath : List Char) (f : FileRec) (content : List Nat),
      lookupA st.ctx.files filePath = some f →
      f.absolute = filePath →
      load_content f st.disk = some content →
      2 ≤ (splitIntoChunks chunkSize content).length →
      (chunkPaths (parentOfPath filePath) f.name 0
        (splitIntoChunks chunkSize content).length).Nodup →
      (∀ q ∈ chunkPaths (parentOfPath filePath) f.name 0
        (splitIntoChunks chunkSize content).length, lookupA st.ctx.files q = none) →
      (∀ q ∈ chunkPaths (parentOfPath filePath) f.name 0
        (splitIntoChunks chunkSize content).length,
        (diffPaths q st.ctx.build_dir).isSome = true) →
      filePath ∉ chunkPaths (parentOfPath filePath) f.name 0
        (splitIntoChunks chunkSize content).length →
      (".js".toList).isSuffixOf f.name = false →
      (lookupA st.disk filePath).isSome = true →
      ∃ st' : PipeState, chunk_execute_file chunkSize stub st filePath = .ok st' ∧
        lookupA st'.ctx.chunks filePath =
          some (chunkPaths (parentOfPath filePath) f.name 0
            (splitIntoChunks chunkSize content).length) ∧
        st'.ctx.stats.chunked_files = st.ctx.stats.chunked_files + 1 ∧
        st'.ctx.stats.total_chunks =
          st.ctx.stats.total_chunks + (splitIntoChunks chunkSize content).length ∧
        lookupA st'.ctx.files filePath = none ∧
        lookupA st'.disk filePath = none) :=
  ⟨mem_files_to_chunk_iff, should_chunk_iff, chunk_execute_file_small,
   chunk_execute_file_js, chunk_execute_file_nonjs⟩

/-- Witness for C7: on the concrete one-file state, splitting one byte at
chunk size 4 yields a single chunk and the file is left unchanged apart from
its content cache. -/
theorem c7_chunk_stage_gate_witness :
    chunk_execute_file 4 (fun _ => []) c8State "b/app.js".toList =
      .ok { c8State with ctx := { c8State.ctx with
        files := insertA c8State.ctx.files "b/app.js".toList
          { c8File with content := some [7] } } } :=
  c7_chunk_stage_gate.2.2.1 4 (fun _ => []) c8State "b/app.js".toList c8File [7]
    (by decide) (by decide) (by decide)

/-! ## C10: the naming round-trip `get_original_name ∘ add_chunk_suffix ∘ add_hash` -/

theorem mem_natDigits_digit (n : Nat) : ∀ c ∈ natDigits n, '0' ≤ c ∧ c ≤ '9' := by
  induction n using Nat.strong_induction_on with
  | _ n ih =>
    intro c hc
    unfold natDigits at hc
    by_cases h : n < 10
    · rw [dif_pos h] at hc
      simp only [List.mem_singleton] at hc
      subst hc
      interval_cases n <;> decide
    · rw [dif_neg h] at hc
      rcases List.mem_append.mp hc with h1 | h2
      · exact ih (n / 10) (Nat.div_lt_self (by omega) (by omega)) c h1
      · simp only [List.mem_singleton] at h2
        subst h2
        have hm : n % 10 < 10 := Nat.mod_lt _ (by omega)
        revert hm
        generalize n % 10 = m
        intro hm
        interval_cases m <;> decide

theorem not_dot_mem_natDigits (n : Nat) : '.' ∉ natDigits n := by
  intro hmem
  have hd := mem_natDigits_digit n '.' hmem
  revert hd
  decide

theorem isAsciiHexDigit_of_lower (c : Char) (h : isLowerHexDigit c = true) :
    isAsciiHexDigit c = true := by
  unfold isLowerHexDigit at h
  unfold isAsciiHexDigit
  rw [decide_eq_true_eq] at h ⊢
  tauto

theorem isPrefixOf_eq_true (l₁ l₂ : List Char) : l₁.isPrefixOf l₂ = true ↔ l₁ <+: l₂ :=
  List.isPrefixOf_iff_prefix

/-- Structure of a solution of `".chunk" ++ t = d ++ "." ++ rest`: either the
pattern fits inside `d`, or `d` is empty and `rest` starts with `"chunk"`. -/
theorem chunkPat_prefix_cases (d rest t : List Char)
    (ht : ['.', 'c', 'h', 'u', 'n', 'k'] ++ t = d ++ '.' :: rest) :
    ['.', 'c', 'h', 'u', 'n', 'k'] <+: d ∨
      (d = [] ∧ rest = 'c' :: 'h' :: 'u' :: 'n' :: 'k' :: t) := by
  rcases d with _ | ⟨c0, d⟩
  · injection ht with h0 h1
    exact Or.inr ⟨rfl, h1.symm⟩
  · injection ht with h0 ht
    rcases d with _ | ⟨c1, d⟩
    · injection ht with h1 h1'
      exact absurd h1 (by decide)
    · injection ht with h1 ht
      rcases d with _ | ⟨c2, d⟩
      · injection ht with h2 h2'
        exact absurd h2 (by decide)
      · injection ht with h2 ht
        rcases d with _ | ⟨c3, d⟩
        · injection ht with h3 h3'
          exact absurd h3 (by decide)
        · injection ht with h3 ht
          rcases d with _ | ⟨c4, d⟩
          · injection ht with h4 h4'
            exact absurd h4 (by decide)
          · injection ht with h4 ht
            rcases d with _ | ⟨c5, d⟩
            · injection ht with h5 h5'
              exact absurd h5 (by decide)
            · injection ht with h5 ht
              refine Or.inl ⟨d, ?_⟩
              rw [← h0, ← h1, ← h2, ← h3, ← h4, ← h5]
              rfl

/-- A stem with no `".chunk"` substring, extended by a dot and a lowercase-hex
hash, still has no occurrence of `".chunk"` at any position. -/
theorem chunkPat_notPrefix_stem_hash (stem h : List Char)
    (hchunk : ¬ ('.' :: 'c' :: 'h' :: 'u' :: 'n' :: 'k' :: []) <:+: stem)
    (hhex : ∀ c ∈ h, isLowerHexDigit c = true) (i : Nat) :
    (['.', 'c', 'h', 'u', 'n', 'k'] : List Char).isPrefixOf ((stem ++ '.' :: h).drop i)
      = false := by
  by_cases hb : (['.', 'c', 'h', 'u', 'n', 'k'] : List Char).isPrefixOf
      ((stem ++ '.' :: h).drop i) = true
  · exfalso
    obtain ⟨t, ht⟩ := (isPrefixOf_eq_true _ _).mp hb
    by_cases hi : i ≤ stem.length
    · rw [List.drop_append_of_le_length hi] at ht
      rcases chunkPat_prefix_cases (stem.drop i) h t ht with hpre | ⟨_, hh⟩
      · exact hchunk (hpre.isInfix.trans (List.drop_suffix i stem).isInfix)
      · have hmem : 'h' ∈ h := by rw [hh]; simp
        have hbad := hhex 'h' hmem
        revert hbad
        decide
    · have hi2 : i = stem.length + (i - stem.length - 1 + 1) := by omega
      rw [hi2, List.drop_append, List.drop_succ_cons] at ht
      have hmem : ('.' : Char) ∈ h.drop (i - stem.length - 1) := by
        rw [← ht]
        simp
      have hmem2 := List.drop_subset _ h hmem
      have hbad := hhex '.' hmem2
      revert hbad
      decide
  · exact Bool.eq_false_iff.mpr hb

theorem rfindSubstring_eq_none (s pat : List Char)
    (h : ∀ i, pat.isPrefixOf (s.drop i) = false) :
    rfindSubstring s pat = none := by
  unfold rfindSubstring
  have hfil : (List.range (s.length + 1)).filter (fun i => pat.isPrefixOf (s.drop i)) = [] :=
    List.filter_eq_nil_iff.mpr (fun a _ => by simp [h a])
  rw [hfil]
  rfl

theorem getLast?_filter_range (P : Nat → Bool) (n : Nat) : ∀ j : Nat, j < n →
    P j = true → (∀ k, j < k → k < n → P k = false) →
    ((List.range n).filter P).getLast? = some j := by
  induction n with
  | zero => intro j hj _ _; exact absurd hj (Nat.not_lt_zero j)
  | succ n ih =>
    intro j hj hPj hafter
    rw [List.range_succ, List.filter_append]
    by_cases hjn : j = n
    · subst hjn
      rw [show List.filter P [j] = [j] by simp [List.filter_cons, hPj]]
      exact List.getLast?_concat _
    · have hPn : P n = false := hafter n (by omega) (by omega)
      rw [show List.filter P [n] = [] by simp [List.filter_cons, hPn], List.append_nil]
      exact ih j (by omega) hPj fun k hk1 hk2 => hafter k hk1 (by omega)

theorem rfindSubstring_eq_some (s pat : List Char) (j : Nat) (hj : j ≤ s.length)
    (hPj : pat.isPrefixOf (s.drop j) = true)
    (hafter : ∀ k, j < k → k ≤ s.length → pat.isPrefixOf (s.drop k) = false) :
    rfindSubstring s pat = some j := by
  unfold rfindSubstring
  exact getLast?_filter_range (fun i => pat.isPrefixOf (s.drop i)) (s.length + 1) j
    (by omega) hPj (fun k hk1 hk2 => hafter k hk1 (by omega))

/-- `file_stem` and dotted `extension` of a well-formed `stem ++ "." ++ ext`
name (nonempty stem, dot-free ext, not the special name `".."`). -/
theorem fileStem_extDot_append (b a : List Char) (hb : b ≠ []) (ha : '.' ∉ a)
    (hdeg : b ++ '.' :: a ≠ ['.', '.']) :
    fileStemOfName (b ++ '.' :: a) = some b ∧ extDotOfName (b ++ '.' :: a) = '.' :: a := by
  have hsplit := splitAtLastDot_append b a ha
  have hne1 : b ++ '.' :: a ≠ [] := by simp
  have hne2 : b ++ '.' :: a ≠ ['.'] := by
    intro he
    have hl := congrArg List.length he
    simp only [List.length_append, List.length_cons, List.length_nil] at hl
    have hb0 : b.length = 0 := by omega
    exact hb (List.length_eq_zero.mp hb0)
  have hguard : ¬ (b ++ '.' :: a = [] ∨ b ++ '.' :: a = ['.'] ∨ b ++ '.' :: a = ['.', '.']) := by
    push_neg
    exact ⟨hne1, hne2, hdeg⟩
  have hext : extOfName (b ++ '.' :: a) = some a := by
    unfold extOfName
    rw [if_neg hguard]
    simp only [hsplit]
    rw [if_neg hb]
  constructor
  · unfold fileStemOfName
    rw [if_neg hguard]
    simp only [hsplit]
    rw [if_neg hb]
  · unfold extDotOfName
    rw [hext]

/-- C10 (naming round-trip): for every filename `stem ++ "." ++ ext` whose
stem is nonempty and free of the substring `".chunk"` (and which is not the
extension-less special name `".."`), every 8-character lowercase-hex hash `h`
and every chunk index `i`: `get_original_name` inverts `add_hash`, and also
inverts `add_chunk_suffix` composed with `add_hash`. -/
theorem c10_naming_roundtrip (stem ext h : List Char) (i : Nat)
    (hstem : stem ≠ [])
    (hdeg : stem ++ '.' :: ext ≠ ['.', '.'])
    (hext : '.' ∉ ext)
    (hchunk : ¬ ('.' :: 'c' :: 'h' :: 'u' :: 'n' :: 'k' :: []) <:+: stem)
    (hlen : h.length = 8)
    (hhex : ∀ c ∈ h, isLowerHexDigit c = true) :
    get_original_name (add_hash (stem ++ '.' :: ext) h) = stem ++ '.' :: ext ∧
    get_original_name (add_chunk_suffix (add_hash (stem ++ '.' :: ext) h) i) =
      stem ++ '.' :: ext := by
  have hAne : stem ++ '.' :: h ≠ [] := by simp
  obtain ⟨hfs0, hed0⟩ := fileStem_extDot_append stem ext hstem hext hdeg
  have hhn : add_hash (stem ++ '.' :: ext) h = (stem ++ '.' :: h) ++ '.' :: ext := by
    simp only [add_hash]
    rw [hfs0, hed0]
    simp [List.append_assoc]
  have hdegA : (stem ++ '.' :: h) ++ '.' :: ext ≠ ['.', '.'] := by
    intro he
    have hl := congrArg List.length he
    simp only [List.length_append, List.length_cons, List.length_nil, hlen] at hl
    omega
  obtain ⟨hfsA, hedA⟩ := fileStem_extDot_append (stem ++ '.' :: h) ext hAne hext hdegA
  have hhdf : ∀ a ∈ h, a ≠ '.' := by
    intro a ha hc
    subst hc
    have hbad := hhex '.' ha
    revert hbad
    decide
  have hsH : splitSep '.' (stem ++ '.' :: h) = splitSep '.' stem ++ [h] := by
    rw [splitSep_append, splitSep_sepFree '.' h hhdf]
  have h2le : 2 ≤ (splitSep '.' stem ++ [h]).length := by
    rw [List.length_append]
    have hpos := length_splitSep_pos '.' stem
    simp only [List.length_cons, List.length_nil]
    omega
  have hall : h.all isAsciiHexDigit = true :=
    List.all_eq_true.mpr fun a ha => isAsciiHexDigit_of_lower a (hhex a ha)
  have hrfB : rfindSubstring (stem ++ '.' :: h) ('.' :: 'c' :: 'h' :: 'u' :: 'n' :: 'k' :: [])
      = none :=
    rfindSubstring_eq_none _ _ (chunkPat_notPrefix_stem_hash stem h hchunk hhex)
  refine ⟨?_, ?_⟩
  · rw [hhn]
    simp only [get_original_name]
    rw [hfsA, hedA]
    simp only [Option.getD_some]
    rw [hrfB]
    simp only []
    rw [hsH, if_pos h2le, List.getLast?_concat]
    simp only []
    rw [if_pos ⟨hlen, hall⟩, List.dropLast_concat, joinSep_splitSep]
  · rw [hhn]
    have hB2ne : (stem ++ '.' :: h) ++ (['.', 'c', 'h', 'u', 'n', 'k'] ++ natDigits i)
        ≠ [] := by simp
    have hdegC : ((stem ++ '.' :: h) ++ (['.', 'c', 'h', 'u', 'n', 'k'] ++ natDigits i))
        ++ '.' :: ext ≠ ['.', '.'] := by
      intro he
      have hl := congrArg List.length he
      simp only [List.length_append, List.length_cons, List.length_nil, hlen] at hl
      omega
    have hcn : add_chunk_suffix ((stem ++ '.' :: h) ++ '.' :: ext) i
        = ((stem ++ '.' :: h) ++ (['.', 'c', 'h', 'u', 'n', 'k'] ++ natDigits i))
          ++ '.' :: ext := by
      simp only [add_chunk_suffix]
      rw [hfsA, hedA]
      simp [List.append_assoc]
    obtain ⟨hfsC, hedC⟩ := fileStem_extDot_append
      ((stem ++ '.' :: h) ++ (['.', 'c', 'h', 'u', 'n', 'k'] ++ natDigits i)) ext hB2ne hext hdegC
    have hrfC : rfindSubstring
        ((stem ++ '.' :: h) ++ (['.', 'c', 'h', 'u', 'n', 'k'] ++ natDigits i))
        ('.' :: 'c' :: 'h' :: 'u' :: 'n' :: 'k' :: []) = some (stem ++ '.' :: h).length := by
      apply rfindSubstring_eq_some
      · simp only [List.length_append]
        omega
      · rw [List.drop_left, isPrefixOf_eq_true]
        exact List.prefix_append _ _
      · intro k hk1 hk2
        by_cases hb : ('.' :: 'c' :: 'h' :: 'u' :: 'n' :: 'k' :: [] : List Char).isPrefixOf
            (((stem ++ '.' :: h) ++ (['.', 'c', 'h', 'u', 'n', 'k'] ++ natDigits i)).drop k)
            = true
        · exfalso
          obtain ⟨t, ht⟩ := (isPrefixOf_eq_true _ _).mp hb
          have hk : k = (stem ++ '.' :: h).length
              + (k - (stem ++ '.' :: h).length - 1 + 1) := by omega
          rw [hk, List.drop_append,
            show (['.', 'c', 'h', 'u', 'n', 'k'] : List Char) ++ natDigits i
              = '.' :: ('c' :: 'h' :: 'u' :: 'n' :: 'k' :: natDigits i) from rfl,
            List.drop_succ_cons] at ht
          have hmem : ('.' : Char) ∈ ('c' :: 'h' :: 'u' :: 'n' :: 'k' :: natDigits i).drop
              (k - (stem ++ '.' :: h).length - 1) := by
            rw [← ht]
            simp
          have hmem2 := List.drop_subset _ _ hmem
          simp only [List.mem_cons] at hmem2
          rcases hmem2 with h1 | h1 | h1 | h1 | h1 | h1
          · exact absurd h1 (by decide)
          · exact absurd h1 (by decide)
          · exact absurd h1 (by decide)
          · exact absurd h1 (by decide)
          · exact absurd h1 (by decide)
          · exact not_dot_mem_natDigits i h1
        · exact Bool.eq_false_iff.mpr hb
    rw [hcn]
    simp only [get_original_name]
    rw [hfsC, hedC]
    simp only [Option.getD_some]
    rw [hrfC]
    simp only []
    rw [List.take_left, hsH, if_pos h2le, List.getLast?_concat]
    simp only []
    rw [if_pos ⟨hlen, hall⟩, List.dropLast_concat, joinSep_splitSep]

/-- Witness for C10 at the concrete name `main.js`, hash `abc12345`, chunk
index `0`. -/
theorem c10_naming_roundtrip_witness :
    get_original_name (add_hash ("main".toList ++ '.' :: "js".toList) "abc12345".toList) =
      "main".toList ++ '.' :: "js".toList ∧
    get_original_name (add_chunk_suffix
      (add_hash ("main".toList ++ '.' :: "js".toList) "abc12345".toList) 0) =
      "main".toList ++ '.' :: "js".toList :=
  c10_naming_roundtrip "main".toList "js".toList "abc12345".toList 0 (by decide) (by decide)
    (by decide) (by decide) (by decide) (by decide)
